import Mathlib

/-!
# Verification of the CV injector engine (`cv-injector-engine.js`)

Shallow embedding of the core pipeline of the repository: the text-to-model
parser (`parseCVToJSON`), the keyword normalizer (`parseKeywordsToJSON`), the
injection engine (`injectKeywords`), the plain-text exporter
(`exportToDocxText`), the pipeline (`fullInjectionPipeline`), the CRC-32
implementation (`_crc32` / `_makeCRC32Table`) and the minimal ZIP builder
(`_createMinimalZip`).

Modelling conventions:
* JavaScript strings are modelled as `List Char` (`Str`), with the string
  operations (`trim`, `split`, `toLowerCase`, `includes`, …) defined
  structurally so that everything is kernel-computable.
* `Math.random()` draws are modelled by an oracle `rand : Nat → Nat`
  consulted at an incrementing counter; the engine only ever uses a draw
  modulo the template-table length, exactly as
  `Math.floor(Math.random() * len)` yields a value in `[0, len)`.
* `performance.now()` timing fields are observational floats never read by
  any control flow and are omitted from the `Stats` record.
* Byte buffers (`Uint8Array`) are `List Nat` with values `< 256` where it
  matters; 16/32-bit little-endian fields are written with explicit `% 256`
  decompositions, mirroring `DataView.setUint16/setUint32`.
* The mutation discipline of `injectKeywords` (deep-clone then update only
  the clone) is embedded as explicit state passing over `EngineState`, which
  carries both the caller's document (`orig`) and the clone (`inj`); every
  assignment statement of the source is one record update on the state,
  targeting the same object the source statement targets.
-/

namespace CVInjector

/-- JavaScript strings, modelled as character lists. -/
abbrev Str := List Char

/-- Turn a Lean string literal into the model's string type. -/
def strOf (s : String) : Str := s.data

/-- `String.prototype.toLowerCase` (ASCII model). -/
def lowerStr (s : Str) : Str := s.map Char.toLower

/-- `String.prototype.toUpperCase` (ASCII model). -/
def upperStr (s : Str) : Str := s.map Char.toUpper

/-- The whitespace class `\s` / characters trimmed by `String.prototype.trim`
(ASCII model). -/
def isWs (c : Char) : Bool := c = ' ' || c = '\t' || c = '\n' || c = '\r'

/-- `String.prototype.trim`. -/
def trimStr (s : Str) : Str :=
  ((s.dropWhile isWs).reverse.dropWhile isWs).reverse

/-- `String.prototype.split` against a single-character class: split `s` at
every character satisfying `p`, keeping empty pieces (JavaScript `split`
semantics). -/
def splitOnPred (p : Char → Bool) (s : Str) : List Str :=
  s.foldr
    (fun c acc =>
      match acc with
      | [] => [[c]]
      | cur :: rest => if p c then [] :: cur :: rest else (c :: cur) :: rest)
    [[]]

/-- `String.prototype.includes` (substring test; the empty needle is always
found, as in JavaScript). -/
def strIncludes (hay needle : Str) : Bool :=
  if needle.isPrefixOf hay then true
  else
    match hay with
    | [] => false
    | _ :: t => strIncludes t needle

/-- `String.prototype.replace` with a plain-string pattern: replace the first
occurrence only (JavaScript semantics; an empty pattern matches at index 0). -/
def replaceFirst (s pat repl : Str) : Str :=
  if pat.isPrefixOf s then repl ++ s.drop pat.length
  else
    match s with
    | [] => []
    | c :: t => c :: replaceFirst t pat repl

/-- Does the string end with a period (`bullet.endsWith('.')`)? -/
def endsWithDot (s : Str) : Bool := s.getLast? = some '.'

/-- `.replace(/\.$/, '')`: drop a single trailing period if present. -/
def stripTrailingDot (s : Str) : Str :=
  if endsWithDot s then s.dropLast else s

/-- `[...new Set(xs)]` — deduplicate by exact equality, keeping the first
occurrence of each element, preserving order. -/
def dedupeGo (seen : List Str) : List Str → List Str
  | [] => []
  | x :: xs =>
    if seen.contains x then dedupeGo seen xs
    else x :: dedupeGo (x :: seen) xs

/-- `[...new Set(xs)]` on a list of strings (source line 170 / 253). -/
def dedupeExact (l : List Str) : List Str := dedupeGo [] l

/-! ## Data model (§3 of the spec, source lines 44-51) -/

/-- `cv.personal`. -/
structure Personal where
  name : Str
  location : Str
  email : Str
  phone : Str
  linkedin : Str
  github : Str
deriving DecidableEq

/-- An entry of `cv.experience`. -/
structure ExperienceEntry where
  title : Str
  company : Str
  dates : Str
  bullets : List Str
deriving DecidableEq

/-- An entry of `cv.education`. -/
structure EducationEntry where
  degree : Str
  school : Str
  dates : Str
deriving DecidableEq

/-- `cv.skills`. -/
structure Skills where
  hard : List Str
  soft : List Str
deriving DecidableEq

/-- The structured CV document built by `parseCVToJSON`. -/
structure CV where
  personal : Personal
  summary : Str
  experience : List ExperienceEntry
  skills : Skills
  education : List EducationEntry
  certifications : List Str
deriving DecidableEq

/-- A keyword record produced by `parseKeywordsToJSON`. -/
structure Keyword where
  keyword : Str
  priority : Str
  targets : List Str
deriving DecidableEq

/-- The injection statistics record (timing omitted: an observational float
never read by control flow). -/
structure Stats where
  skillsAdded : Nat
  bulletsModified : Nat
  newBulletsCreated : Nat
  totalInjections : Nat
  keywordsCovered : List Str
deriving DecidableEq

/-- `options` for `injectKeywords`; `none` models an absent
`locationOverride` property. -/
structure Options where
  locationOverride : Option Str
deriving DecidableEq

/-- `JSON.parse(JSON.stringify(cv))` (source line 232): a deep structural
rebuild of the document. On this data model (strings, arrays and plain
objects only) the JSON round trip rebuilds every node. -/
def jsonClone (cv : CV) : CV :=
  { personal :=
      { name := cv.personal.name
        location := cv.personal.location
        email := cv.personal.email
        phone := cv.personal.phone
        linkedin := cv.personal.linkedin
        github := cv.personal.github }
    summary := cv.summary
    experience := cv.experience.map fun e =>
      { title := e.title
        company := e.company
        dates := e.dates
        bullets := e.bullets.map id }
    skills :=
      { hard := cv.skills.hard.map id
        soft := cv.skills.soft.map id }
    education := cv.education.map fun e =>
      { degree := e.degree
        school := e.school
        dates := e.dates }
    certifications := cv.certifications.map id }

/-! ## Configuration and templates (source lines 11-33) -/

/-- `CONFIG.MAX_HIGH_PRIO_SKILLS`. -/
def MAX_HIGH_PRIO_SKILLS : Nat := 5

/-- `CONFIG.MAX_TOTAL_INJECTIONS`. -/
def MAX_TOTAL_INJECTIONS : Nat := 15

/-- `INJECTION_TEMPLATES`. -/
def INJECTION_TEMPLATES : List Str :=
  [strOf "Leveraged {kw} to optimize pipelines, achieving {metric}.",
   strOf "Applied {kw} in Agile sprints for scalable ML solutions.",
   strOf "Demonstrated expertise in {kw} across production deployments.",
   strOf "Implemented {kw} strategies driving {metric} improvement.",
   strOf "Built {kw} frameworks enabling cross-functional delivery.",
   strOf "Orchestrated {kw} initiatives reducing operational overhead by {metric}."]

/-- `METRIC_TEMPLATES`. -/
def METRIC_TEMPLATES : List Str :=
  [strOf "20% efficiency gain", strOf "30% cost reduction",
   strOf "40% faster delivery", strOf "25% improvement",
   strOf "15% productivity boost", strOf "35% optimization",
   strOf "50% time savings", strOf "45% error reduction"]

/-! ## Keyword normalizer (`parseKeywordsToJSON`, source lines 187-211) -/

/-- The keyword-groups object handed to `parseKeywordsToJSON`; `none` models
an absent property (the source reads `keywords.highROI || keywords.highPriority
|| []`, and an array — even an empty one — is truthy in JavaScript). -/
structure KeywordGroups where
  highROI : Option (List Str)
  highPriority : Option (List Str)
  mediumROI : Option (List Str)
  mediumPriority : Option (List Str)
  lowROI : Option (List Str)
  lowPriority : Option (List Str)
  unclassified : Option (List Str)
deriving DecidableEq

/-- `a || b || []` for two optional array properties. -/
def groupOr (a b : Option (List Str)) : List Str :=
  match a with
  | some l => l
  | none => match b with
    | some l => l
    | none => []

/-- `parseKeywordsToJSON` (source lines 187-211). -/
def parseKeywordsToJSON (keywords : KeywordGroups) : List Keyword :=
  (groupOr keywords.highROI keywords.highPriority).map
      (fun kw => { keyword := kw, priority := strOf "high"
                   targets := [strOf "experience", strOf "skills"] })
    ++ (groupOr keywords.mediumROI keywords.mediumPriority).map
      (fun kw => { keyword := kw, priority := strOf "medium"
                   targets := [strOf "experience"] })
    ++ (groupOr keywords.lowROI keywords.lowPriority).map
      (fun kw => { keyword := kw, priority := strOf "low"
                   targets := [strOf "summary"] })
    ++ (keywords.unclassified.getD []).map
      (fun kw => { keyword := kw, priority := strOf "medium"
                   targets := [strOf "experience"] })

/-! ## Injection engine (`injectKeywords`, source lines 221-331)

The engine is embedded as explicit state passing.  `EngineState.orig` is the
caller's document object (`cv`), `EngineState.inj` the deep clone
(`injectedCV`); every assignment of the source updates exactly the component
its target object corresponds to.  `used` is the `usedKeywords` set (a list
queried by membership), `templateIdx` the template rotation counter, and
`randCtr` counts `Math.random()` draws consumed from the oracle. -/

structure EngineState where
  orig : CV
  inj : CV
  stats : Stats
  used : List Str
  templateIdx : Nat
  randCtr : Nat

/-- The initial stats record (source lines 223-229). -/
def stats0 : Stats :=
  { skillsAdded := 0, bulletsModified := 0, newBulletsCreated := 0
    totalInjections := 0, keywordsCovered := [] }

/-- State at the top of `injectKeywords`, after the deep clone of line 232. -/
def initEngineState (cv : CV) : EngineState :=
  { orig := cv, inj := jsonClone cv, stats := stats0
    used := [], templateIdx := 0, randCtr := 0 }

/-- One `Math.floor(Math.random() * METRIC_TEMPLATES.length)` pick
(source lines 277 and 309). -/
def pickMetric (rand : Nat → Nat) (st : EngineState) : Str × EngineState :=
  (METRIC_TEMPLATES.getD (rand st.randCtr % METRIC_TEMPLATES.length) [],
   { st with randCtr := st.randCtr + 1 })

/-- The body of the `skillsToAdd.forEach` loop (source lines 244-250). -/
def addSkill (st : EngineState) (k : Keyword) : EngineState :=
  if st.inj.skills.hard.any (fun s => lowerStr s = lowerStr k.keyword) then st
  else
    { st with
      inj := { st.inj with skills :=
        { st.inj.skills with hard := st.inj.skills.hard ++ [k.keyword] } }
      stats := { st.stats with
        skillsAdded := st.stats.skillsAdded + 1
        keywordsCovered := st.stats.keywordsCovered ++ [k.keyword] } }

/-- Skills injection phase (source lines 238-253), including the final
`[...new Set(...)]` dedup of line 253. -/
def phaseSkills (kws : List Keyword) (st : EngineState) : EngineState :=
  let highPrio := kws.filter (fun k => k.priority = strOf "high")
  let skillsToAdd :=
    (highPrio.filter (fun k => k.targets.contains (strOf "skills"))).take
      MAX_HIGH_PRIO_SKILLS
  let st1 := skillsToAdd.foldl addSkill st
  { st1 with inj := { st1.inj with skills :=
      { st1.inj.skills with hard := dedupeExact st1.inj.skills.hard } } }

/-- The body of the `exp.bullets.map` callback (source lines 264-299). -/
def injectIntoBullet (pool : List Keyword) (rand : Nat → Nat)
    (st : EngineState) (bullet : Str) : Str × EngineState :=
  if st.stats.totalInjections ≥ MAX_TOTAL_INJECTIONS then (bullet, st)
  else
    let bulletLower := lowerStr bullet
    match pool.find? (fun k =>
        !st.used.contains (lowerStr k.keyword) &&
        !strIncludes bulletLower (lowerStr k.keyword)) with
    | none => (bullet, st)
    | some kw =>
      let mpick := pickMetric rand st
      let template :=
        INJECTION_TEMPLATES.getD (mpick.2.templateIdx % INJECTION_TEMPLATES.length) []
      let injectedPhrase :=
        replaceFirst (replaceFirst template (strOf "{kw}") kw.keyword)
          (strOf "{metric}") mpick.1
      let st2 := { mpick.2 with templateIdx := mpick.2.templateIdx + 1 }
      let enhanced :=
        if endsWithDot bullet then
          bullet.dropLast ++ strOf ", " ++
            stripTrailingDot (lowerStr injectedPhrase) ++ strOf "."
        else bullet ++ strOf " " ++ injectedPhrase
      (enhanced,
       { st2 with
         used := lowerStr kw.keyword :: st2.used
         stats := { st2.stats with
           bulletsModified := st2.stats.bulletsModified + 1
           totalInjections := st2.stats.totalInjections + 1
           keywordsCovered := st2.stats.keywordsCovered ++ [kw.keyword] } })

/-- `exp.bullets = exp.bullets.map(...)`: left-to-right traversal threading
the mutable counters. -/
def processBullets (pool : List Keyword) (rand : Nat → Nat)
    (st : EngineState) : List Str → List Str × EngineState
  | [] => ([], st)
  | b :: bs =>
    let r := injectIntoBullet pool rand st b
    let rest := processBullets pool rand r.2 bs
    (r.1 :: rest.1, rest.2)

/-- Processing of one experience entry: the bullet map followed by the
synthetic-bullet step (source lines 263-320). -/
def processEntry (pool highPrio : List Keyword) (rand : Nat → Nat)
    (expIdx : Nat) (st : EngineState) (e : ExperienceEntry) :
    ExperienceEntry × EngineState :=
  let r := processBullets pool rand st e.bullets
  let st1 := r.2
  let remainingHigh := highPrio.filter (fun k =>
    k.targets.contains (strOf "experience") &&
    !st1.used.contains (lowerStr k.keyword))
  match remainingHigh with
  | k1 :: k2 :: _ =>
    if expIdx = 0 && st1.stats.newBulletsCreated < 2 then
      let mpick := pickMetric rand st1
      let newBullet :=
        strOf "Implemented " ++ k1.keyword ++ strOf " and " ++ k2.keyword ++
          strOf " solutions, achieving " ++ mpick.1
      ({ e with bullets := r.1 ++ [newBullet] },
       { mpick.2 with
         used := lowerStr k2.keyword :: lowerStr k1.keyword :: mpick.2.used
         stats := { mpick.2.stats with
           keywordsCovered :=
             mpick.2.stats.keywordsCovered ++ [k1.keyword, k2.keyword]
           newBulletsCreated := mpick.2.stats.newBulletsCreated + 1
           totalInjections := mpick.2.stats.totalInjections + 2 } })
    else ({ e with bullets := r.1 }, st1)
  | _ => ({ e with bullets := r.1 }, st1)

/-- `injectedCV.experience.forEach((exp, expIdx) => ...)`. -/
def processEntries (pool highPrio : List Keyword) (rand : Nat → Nat)
    (expIdx : Nat) (st : EngineState) :
    List ExperienceEntry → List ExperienceEntry × EngineState
  | [] => ([], st)
  | e :: es =>
    let r := processEntry pool highPrio rand expIdx st e
    let rest := processEntries pool highPrio rand (expIdx + 1) r.2 es
    (r.1 :: rest.1, rest.2)

/-- Experience injection phase (source lines 255-320). -/
def phaseExperience (kws : List Keyword) (rand : Nat → Nat)
    (st : EngineState) : EngineState :=
  let highPrio := kws.filter (fun k => k.priority = strOf "high")
  let medPrio := kws.filter (fun k => k.priority = strOf "medium")
  let pool := (highPrio.take 3 ++ medPrio.take 2).filter
    (fun k => k.targets.contains (strOf "experience"))
  let r := processEntries pool highPrio rand 0 st st.inj.experience
  { r.2 with inj := { r.2.inj with experience := r.1 } }

/-- Location tailoring (source lines 231 and 322-325): note
`options.locationOverride || null` — an empty-string override is falsy and
therefore behaves as absent. -/
def phaseLocation (opts : Options) (st : EngineState) : EngineState :=
  match opts.locationOverride with
  | some s =>
    if s = [] then st
    else { st with inj := { st.inj with personal :=
      { st.inj.personal with location := s } } }
  | none => st

/-- The whole of `injectKeywords` as a state machine run. -/
def runInject (kws : List Keyword) (opts : Options) (rand : Nat → Nat)
    (cv : CV) : EngineState :=
  phaseLocation opts (phaseExperience kws rand (phaseSkills kws (initEngineState cv)))

/-- `injectKeywords(cv, keywords, options)` (source lines 221-331): the
returned `{ cv: injectedCV, stats }`. -/
def injectKeywords (cv : CV) (kws : List Keyword) (opts : Options)
    (rand : Nat → Nat) : CV × Stats :=
  let st := runInject kws opts rand cv
  (st.inj, st.stats)

/-! ## Text-to-model parser (`parseCVToJSON`, source lines 41-179)

Each regular expression of the source is embedded as a hand-rolled matcher
over `Str` with JavaScript backtracking semantics (leftmost match, greedy /
lazy quantifier order).  The non-ASCII characters appearing in the character
classes are exactly the ones in the source file. -/

/-- `\w` — `[A-Za-z0-9_]`. -/
def isWordChar (c : Char) : Bool := c.isAlphanum || c = '_'

/-- `[A-Za-z]` ( `[A-Z]` under the `i` flag). -/
def isAlphaC (c : Char) : Bool := c.isAlpha

/-- Match a literal case-insensitively at the start, returning the rest. -/
def dropLitCI (lit : Str) (s : Str) : Option Str :=
  match lit, s with
  | [], rest => some rest
  | _ :: _, [] => none
  | c :: lt, d :: st => if c.toLower = d.toLower then dropLitCI lt st else none

/-- `[\s:]*$`. -/
def tailWsColon (s : Str) : Bool := s.all (fun c => isWs c || c = ':')

/-- One single-word alternative of a heading pattern: `^WORD[\s:]*$` (`i`). -/
def headingAlt (w : String) (s : Str) : Bool :=
  match dropLitCI (strOf w) s with
  | some rest => tailWsColon rest
  | none => false

/-- A two-word alternative `^W1\s*W2[\s:]*$` (`i`). -/
def headingAlt2 (w1 w2 : String) (s : Str) : Bool :=
  match dropLitCI (strOf w1) s with
  | some rest =>
    match dropLitCI (strOf w2) (rest.dropWhile isWs) with
    | some rest2 => tailWsColon rest2
    | none => false
  | none => false

/-- An alternative with an optional plural `S`: `^WORDS?[\s:]*$` (`i`). -/
def headingAltOptS (w : String) (s : Str) : Bool :=
  match dropLitCI (strOf w) s with
  | some rest =>
    match rest with
    | c :: rest2 => if c.toLower = 's' then tailWsColon rest2 else tailWsColon rest
    | [] => true
  | none => false

/-- `sectionPatterns.summary` (source line 59). -/
def isSummaryHeading (s : Str) : Bool :=
  headingAlt2 "PROFESSIONAL" "SUMMARY" s || headingAlt "SUMMARY" s ||
    headingAlt "PROFILE" s || headingAlt "OBJECTIVE" s

/-- `sectionPatterns.experience` (source line 60). -/
def isExperienceHeading (s : Str) : Bool :=
  headingAlt "EXPERIENCE" s || headingAlt2 "WORK" "EXPERIENCE" s ||
    headingAlt "EMPLOYMENT" s || headingAlt2 "PROFESSIONAL" "EXPERIENCE" s

/-- `sectionPatterns.skills` (source line 61). -/
def isSkillsHeading (s : Str) : Bool :=
  headingAlt "SKILLS" s || headingAlt2 "TECHNICAL" "SKILLS" s ||
    headingAlt2 "CORE" "SKILLS" s || headingAlt2 "KEY" "SKILLS" s

/-- `sectionPatterns.education` (source line 62). -/
def isEducationHeading (s : Str) : Bool :=
  headingAlt "EDUCATION" s || headingAlt "ACADEMIC" s ||
    headingAlt "QUALIFICATIONS" s

/-- `sectionPatterns.certifications` (source line 63). -/
def isCertsHeading (s : Str) : Bool :=
  headingAltOptS "CERTIFICATION" s || headingAltOptS "LICENSE" s ||
    headingAltOptS "CREDENTIAL" s

/-- The class `[\w.-]` of the email pattern. -/
def isEmailChar (c : Char) : Bool := isWordChar c || c = '.' || c = '-'

/-- All decompositions `l = before ++ '.' :: after`, in ascending order of
`before.length`. -/
def splitsAtDot (acc : Str) : Str → List (Str × Str)
  | [] => []
  | c :: rest =>
    let tl := splitsAtDot (acc ++ [c]) rest
    if c = '.' then (acc, rest) :: tl else tl

/-- Match `[\w.-]+@[\w.-]+\.\w+` anchored at the start of `s` and return the
matched text.  The greedy run after `@` backtracks to the last `.` that is
followed by a word character, and the final `\w+` is the maximal word run. -/
def emailAt (s : Str) : Option Str :=
  let r1 := s.takeWhile isEmailChar
  if r1.isEmpty then none
  else
    match s.drop r1.length with
    | '@' :: rest =>
      let r2full := rest.takeWhile isEmailChar
      match ((splitsAtDot [] r2full).filter (fun p =>
          !p.1.isEmpty && (p.2.headD ' ' |> isWordChar))).getLast? with
      | some p => some (r1 ++ '@' :: p.1 ++ '.' :: p.2.takeWhile isWordChar)
      | none => none
    | _ => none

/-- Leftmost match of the email pattern (`trimmed.match(...)`). -/
def emailSearch : Str → Option Str
  | [] => none
  | c :: t =>
    match emailAt (c :: t) with
    | some m => some m
    | none => emailSearch t

/-- The class `[\d\s\-\(\)]` of the phone pattern. -/
def isPhoneChar (c : Char) : Bool :=
  c.isDigit || isWs c || c = '-' || c = '(' || c = ')'

/-- Match `[\+]?[\d\s\-\(\)]{10,}` anchored at the start. -/
def phoneAt (s : Str) : Option Str :=
  match s with
  | '+' :: rest =>
    let run := rest.takeWhile isPhoneChar
    if decide (10 ≤ run.length) then some ('+' :: run) else none
  | _ =>
    let run := s.takeWhile isPhoneChar
    if decide (10 ≤ run.length) then some run else none

/-- Leftmost match of the phone pattern. -/
def phoneSearch : Str → Option Str
  | [] => none
  | c :: t =>
    match phoneAt (c :: t) with
    | some m => some m
    | none => phoneSearch t

/-- `[\w-]`. -/
def isLinkChar (c : Char) : Bool := isWordChar c || c = '-'

/-- Match `LIT[\w-]+` (`i`) anchored at the start, returning the matched
text with the input's original casing. -/
def urlAt (lit : Str) (s : Str) : Option Str :=
  match dropLitCI lit s with
  | some rest =>
    let run := rest.takeWhile isLinkChar
    if run.isEmpty then none else some (s.take lit.length ++ run)
  | none => none

/-- Leftmost match of `linkedin\.com\/in\/[\w-]+` (`i`). -/
def linkedinSearch : Str → Option Str
  | [] => none
  | c :: t =>
    match urlAt (strOf "linkedin.com/in/") (c :: t) with
    | some m => some m
    | none => linkedinSearch t

/-- Leftmost match of `github\.com\/[\w-]+` (`i`). -/
def githubSearch : Str → Option Str
  | [] => none
  | c :: t =>
    match urlAt (strOf "github.com/") (c :: t) with
    | some m => some m
    | none => githubSearch t

/-- First alternative of the location pattern: `,\s*[A-Z]{2,}\s*$` (`i`) —
somewhere in the line, a comma followed by optional whitespace, at least two
letters, and only whitespace to the end. -/
def locAltA : Str → Bool
  | [] => false
  | ',' :: rest =>
    (let r := rest.dropWhile isWs
     let letters := r.takeWhile isAlphaC
     decide (2 ≤ letters.length) && (r.drop letters.length).all isWs) ||
      locAltA rest
  | _ :: rest => locAltA rest

/-- Second alternative: `,\s*\w+\s*,\s*\w+`. -/
def locAltB : Str → Bool
  | [] => false
  | ',' :: rest =>
    (let r := rest.dropWhile isWs
     let w1 := r.takeWhile isWordChar
     decide (1 ≤ w1.length) &&
       (match (r.drop w1.length).dropWhile isWs with
        | ',' :: r3 =>
          decide (1 ≤ ((r3.dropWhile isWs).takeWhile isWordChar).length)
        | _ => false)) ||
      locAltB rest
  | _ :: rest => locAltB rest

/-- Case-insensitive substring test. -/
def includesCI (s : Str) (lit : String) : Bool :=
  strIncludes (lowerStr s) (strOf lit)

/-- The location heuristic of source line 89:
`/,\s*[A-Z]{2,}\s*$|,\s*\w+\s*,\s*\w+|Dublin|London|New York|San Francisco/i`. -/
def locationTest (s : Str) : Bool :=
  locAltA s || locAltB s || includesCI s "dublin" || includesCI s "london" ||
    includesCI s "new york" || includesCI s "san francisco"

/-- The date-separator class `[-‚Äì]` of source line 125. -/
def dateSepChar (c : Char) : Bool := c = '-' || c = '‚' || c = 'Ä' || c = 'ì'

/-- Match `\d{4}\s*[-‚Äì]\s*(Present|\d{4})` (`i`) anchored at the start,
returning the matched text. -/
def dateAt (s : Str) : Option Str :=
  match s with
  | a :: b :: c :: d :: rest =>
    if a.isDigit && b.isDigit && c.isDigit && d.isDigit then
      let w1 := rest.takeWhile isWs
      match rest.drop w1.length with
      | sep :: rest2 =>
        if dateSepChar sep then
          let w2 := rest2.takeWhile isWs
          let r3 := rest2.drop w2.length
          match dropLitCI (strOf "Present") r3 with
          | some _ => some (a :: b :: c :: d :: w1 ++ sep :: w2 ++ r3.take 7)
          | none =>
            match r3 with
            | e :: f :: g :: h :: _ =>
              if e.isDigit && f.isDigit && g.isDigit && h.isDigit then
                some (a :: b :: c :: d :: w1 ++ sep :: w2 ++ [e, f, g, h])
              else none
            | _ => none
        else none
      | [] => none
    else none
  | _ => none

/-- Leftmost match of the date pattern. -/
def dateSearch : Str → Option Str
  | [] => none
  | c :: t =>
    match dateAt (c :: t) with
    | some m => some m
    | none => dateSearch t

/-- The separator class `[|‚Äì-]` of the role-header pattern
(source line 123). -/
def roleSepChar (c : Char) : Bool :=
  c = '|' || c = '‚' || c = 'Ä' || c = 'ì' || c = '-'

/-- Lengths a greedy `\s*` can consume at the start of `l`, longest first. -/
def wsPrefixLens (l : Str) : List Nat :=
  (List.range ((l.takeWhile isWs).length + 1)).reverse

/-- Remainders after matching `\s*[|‚Äì-]\s*` at the start of `l`, in
backtracking preference order (both `\s*` greedy, outer one first). -/
def sepSplits (l : Str) : List Str :=
  (wsPrefixLens l).flatMap (fun k =>
    match l.drop k with
    | c :: rest =>
      if roleSepChar c then (wsPrefixLens rest).map (fun j => rest.drop j)
      else []
    | [] => [])

/-- Match `(.+?)(?:\s*[|‚Äì-]\s*(.+))?$` against `acc`-extended input:
the lazy `(.+?)` grows one character at a time; for each size the optional
group (greedy) is tried over the `sepSplits` candidates, the inner `(.+)`
taking everything to the end; failing that, the group matches empty and `$`
must hold. -/
def roleTailGo (acc : Str) : Str → Option (Str × Option Str)
  | [] => none
  | c :: rest =>
    let g2 := acc ++ [c]
    match (sepSplits rest).find? (fun r => !r.isEmpty) with
    | some r => some (g2, some r)
    | none =>
      if rest.isEmpty then some (g2, none) else roleTailGo g2 rest

/-- Match `^(.+?)\s*[|‚Äì-]\s*` followed by `roleTailGo`: the lazy group 1
grows one character at a time, and for each size every `sepSplits`
candidate is tried against the tail pattern. -/
def roleG1Go (acc : Str) : Str → Option (Str × Str × Option Str)
  | [] => none
  | c :: rest =>
    let g1 := acc ++ [c]
    match (sepSplits rest).findSome?
        (fun r => (roleTailGo [] r).map (fun p => (g1, p.1, p.2))) with
    | some res => some res
    | none => roleG1Go g1 rest

/-- `trimmed.match(/^(.+?)\s*[|‚Äì-]\s*(.+?)(?:\s*[|‚Äì-]\s*(.+))?$/)`
(source line 123), returning groups 1-3. -/
def roleMatch (s : Str) : Option (Str × Str × Option Str) := roleG1Go [] s

/-- The bullet-glyph class `[‚Ä¢\-\*‚ñ™‚ñ∏‚ñ∫]` of source lines 124/138. -/
def bulletChar (c : Char) : Bool :=
  c = '‚' || c = 'Ä' || c = '¢' || c = '-' || c = '*' || c = 'ñ' ||
    c = '™' || c = '∏' || c = '∫'

/-- `/^[‚Ä¢\-\*‚ñ™‚ñ∏‚ñ∫]\s/.test(trimmed)` (source line 124). -/
def isBulletLine (s : Str) : Bool :=
  match s with
  | c :: d :: _ => bulletChar c && isWs d
  | _ => false

/-- `trimmed.replace(/^[‚Ä¢\-\*‚ñ™‚ñ∏‚ñ∫]\s*/, '')` (source line 138). -/
def stripBulletGlyph (s : Str) : Str :=
  match s with
  | c :: rest => if bulletChar c then rest.dropWhile isWs else s
  | [] => []

/-- The smaller glyph class `[‚Ä¢\-\*]` used for skills and certifications
(source lines 145 and 160). -/
def skillStripChar (c : Char) : Bool :=
  c = '‚' || c = 'Ä' || c = '¢' || c = '-' || c = '*'

/-- `.replace(/^[‚Ä¢\-\*]\s*/, '')`. -/
def stripSkillGlyph (s : Str) : Str :=
  match s with
  | c :: rest => if skillStripChar c then rest.dropWhile isWs else s
  | [] => []

/-- The exclusion class `[@|‚Ä¢]` of the name heuristic (source line 73). -/
def nameBadChar (c : Char) : Bool :=
  c = '@' || c = '|' || c = '‚' || c = 'Ä' || c = '¢'

/-- The strip class `[|‚Ä¢]` of the location assignment (source line 90). -/
def locStripChar (c : Char) : Bool :=
  c = '|' || c = '‚' || c = 'Ä' || c = '¢'

/-- One iteration of the header-scan loop (source lines 68-92); each match
overwrites the corresponding field, so the last matching line wins. -/
def headerScanLine (p : Personal) (line : Str) : Personal :=
  let trimmed := trimStr line
  if trimmed.isEmpty then p
  else
    let p :=
      if p.name.isEmpty && decide (3 < trimmed.length) &&
          (trimmed.headD ' ').isUpper && !trimmed.any nameBadChar
      then { p with name := trimmed } else p
    let p := match emailSearch trimmed with
      | some m => { p with email := m } | none => p
    let p := match phoneSearch trimmed with
      | some m => { p with phone := trimStr m } | none => p
    let p := match linkedinSearch trimmed with
      | some m => { p with linkedin := m } | none => p
    let p := match githubSearch trimmed with
      | some m => { p with github := m } | none => p
    if locationTest trimmed then
      { p with location := trimStr (trimmed.filter (fun c => !locStripChar c)) }
    else p

/-- The mutable scan state of the section loop (source lines 54-56). -/
structure ParseState where
  cv : CV
  currentSection : Str
  currentRole : Option ExperienceEntry
  summaryLines : List Str

/-- `summaryLines.join(' ')`. -/
def joinSep (sep : Str) : List Str → Str
  | [] => []
  | [x] => x
  | x :: xs => x ++ sep ++ joinSep sep xs

/-- The five section patterns in `Object.entries` enumeration order
(source lines 58-64). -/
def sectionChecks : List (Str × (Str → Bool)) :=
  [(strOf "summary", isSummaryHeading),
   (strOf "experience", isExperienceHeading),
   (strOf "skills", isSkillsHeading),
   (strOf "education", isEducationHeading),
   (strOf "certifications", isCertsHeading)]

/-- One iteration of the pattern loop (source lines 100-114): on a match,
flush a pending summary, flush an open role, switch section, clear the
summary buffer.  The `continue` of the source only skips to the next
pattern, so all five patterns are tested in sequence. -/
def applySectionCheck (trimmed : Str) (ps : ParseState)
    (chk : Str × (Str → Bool)) : ParseState :=
  if chk.2 trimmed then
    let ps :=
      if ps.currentSection = strOf "summary" && !ps.summaryLines.isEmpty then
        { ps with cv := { ps.cv with
            summary := trimStr (joinSep (strOf " ") ps.summaryLines) } }
      else ps
    let ps :=
      if ps.currentSection = strOf "experience" then
        match ps.currentRole with
        | some role =>
          { ps with cv := { ps.cv with experience := ps.cv.experience ++ [role] }
                    currentRole := none }
        | none => ps
      else ps
    { ps with currentSection := chk.1, summaryLines := [] }
  else ps

/-- The pieces a skills line contributes (source lines 142-149): strip a
leading glyph, split on `[,;]`, trim, keep pieces of length 2-40. -/
def skillPieces (trimmed : Str) : List Str :=
  ((splitOnPred (fun c => c = ',' || c = ';') (stripSkillGlyph trimmed)).map
      trimStr).filter
    (fun s => decide (2 ≤ s.length) && decide (s.length ≤ 40))

/-- Experience-section content handling (source lines 121-140). -/
def expContent (ps : ParseState) (trimmed : Str) : ParseState :=
  let rm := roleMatch trimmed
  let isB := isBulletLine trimmed
  let isD := (dateSearch trimmed).isSome
  if !isB && (rm.isSome || isD) then
    let ps :=
      match ps.currentRole with
      | some role =>
        { ps with cv := { ps.cv with experience := ps.cv.experience ++ [role] } }
      | none => ps
    let newRole : ExperienceEntry :=
      { title := (match rm with | some p => p.2.1 | none => [])
        company :=
          (match rm with
           | some p => p.1
           | none => trimStr ((splitOnPred (fun c => c = '|') trimmed).headD []))
        dates :=
          (match rm with
           | some p =>
             match p.2.2 with
             | some d => d
             | none => (dateSearch trimmed).getD []
           | none => (dateSearch trimmed).getD [])
        bullets := [] }
    { ps with currentRole := some newRole }
  else if isB then
    match ps.currentRole with
    | some role =>
      let role2 := { role with bullets := role.bullets ++ [stripBulletGlyph trimmed] }
      { ps with currentRole := some role2 }
    | none => ps
  else ps

/-- Section-content handling for one line (source lines 117-162).  Note the
heading line itself reaches these handlers with the freshly switched
section: the skills handler has no self-exclusion guard, unlike education
and certifications. -/
def handleContent (ps : ParseState) (trimmed : Str) : ParseState :=
  let ps :=
    if ps.currentSection = strOf "summary" && !trimmed.isEmpty then
      { ps with summaryLines := ps.summaryLines ++ [trimmed] }
    else ps
  let ps :=
    if ps.currentSection = strOf "experience" && !trimmed.isEmpty then
      expContent ps trimmed
    else ps
  let ps :=
    if ps.currentSection = strOf "skills" && !trimmed.isEmpty then
      { ps with cv := { ps.cv with skills :=
          { ps.cv.skills with hard := ps.cv.skills.hard ++ skillPieces trimmed } } }
    else ps
  let ps :=
    if ps.currentSection = strOf "education" && !trimmed.isEmpty then
      if decide (5 < trimmed.length) && !isEducationHeading trimmed then
        { ps with cv := { ps.cv with education := ps.cv.education ++
            [{ degree := trimmed, school := [], dates := [] }] } }
      else ps
    else ps
  if ps.currentSection = strOf "certifications" && !trimmed.isEmpty then
    if !isCertsHeading trimmed then
      { ps with cv := { ps.cv with certifications :=
          ps.cv.certifications ++ [stripSkillGlyph trimmed] } }
    else ps
  else ps

/-- One iteration of the main section-scan loop (source lines 95-163). -/
def parseLine (ps : ParseState) (line : Str) : ParseState :=
  let trimmed := trimStr line
  handleContent (sectionChecks.foldl (applySectionCheck trimmed) ps) trimmed

/-- The empty document skeleton (source lines 44-51). -/
def emptyCV : CV :=
  { personal := { name := [], location := [], email := [], phone := []
                  linkedin := [], github := [] }
    summary := [], experience := []
    skills := { hard := [], soft := [] }
    education := [], certifications := [] }

/-- `parseCVToJSON(cvText)` (source lines 41-179). -/
def parseCVToJSON (cvText : Str) : Option CV :=
  if cvText.isEmpty then none
  else
    let lines := splitOnPred (fun c => c = '\n') cvText
    let personal := (lines.take 10).foldl headerScanLine emptyCV.personal
    let ps0 : ParseState :=
      { cv := { emptyCV with personal := personal }
        currentSection := strOf "header", currentRole := none
        summaryLines := [] }
    let ps := lines.foldl parseLine ps0
    let cv :=
      match ps.currentRole with
      | some role => { ps.cv with experience := ps.cv.experience ++ [role] }
      | none => ps.cv
    let cv :=
      if !ps.summaryLines.isEmpty then
        { cv with summary := trimStr (joinSep (strOf " ") ps.summaryLines) }
      else cv
    some { cv with skills := { cv.skills with hard := dedupeExact cv.skills.hard } }

/-! ## Plain-text exporter and pipeline (source lines 339-472) -/

/-- `.filter(Boolean)` on strings: keep the non-empty ones. -/
def filterBoolean (l : List Str) : List Str := l.filter (fun s => !s.isEmpty)

/-- `exportToDocxText(cv)` (source lines 339-394). -/
def exportToDocxText (cv : CV) : Str :=
  let lines : List Str :=
    [upperStr cv.personal.name,
     joinSep (strOf " | ")
       (filterBoolean [cv.personal.location, cv.personal.email, cv.personal.phone])]
    ++ (if !cv.personal.linkedin.isEmpty || !cv.personal.github.isEmpty then
          [joinSep (strOf " | ")
            (filterBoolean [cv.personal.linkedin, cv.personal.github])]
        else [])
    ++ [[]]
    ++ (if !cv.summary.isEmpty then
          [strOf "PROFESSIONAL SUMMARY", cv.summary, []]
        else [])
    ++ (if !cv.experience.isEmpty then
          strOf "EXPERIENCE" :: cv.experience.flatMap (fun exp =>
            [exp.company ++ strOf " | " ++ exp.title]
            ++ (if !exp.dates.isEmpty then [exp.dates] else [])
            ++ (exp.bullets.take 6).map (fun b => strOf "‚Ä¢ " ++ b)
            ++ [[]])
        else [])
    ++ (if !cv.skills.hard.isEmpty then
          [strOf "SKILLS", joinSep (strOf ", ") cv.skills.hard, []]
        else [])
    ++ (if !cv.education.isEmpty then
          strOf "EDUCATION" :: cv.education.map (fun e => e.degree) ++ [[]]
        else [])
    ++ (if !cv.certifications.isEmpty then
          [strOf "CERTIFICATIONS", joinSep (strOf ", ") cv.certifications]
        else [])
  joinSep (strOf "\n") lines

/-- The sections object of `exportForPDFGenerator` (source lines 402-420). -/
structure PDFSections where
  contactName : Str
  contactLine : Str
  linksLine : Str
  summary : Str
  experience : Str
  skills : Str
  education : Str
  certifications : Str
deriving DecidableEq

/-- `exportForPDFGenerator(cv)` (source lines 402-420). -/
def exportForPDFGenerator (cv : CV) : PDFSections :=
  { contactName := cv.personal.name
    contactLine := joinSep (strOf " | ")
      (filterBoolean [cv.personal.phone, cv.personal.email, cv.personal.location])
    linksLine := joinSep (strOf " | ")
      (filterBoolean [cv.personal.linkedin, cv.personal.github])
    summary := cv.summary
    experience := joinSep (strOf "\n\n") (cv.experience.map (fun exp =>
      joinSep (strOf "\n")
        ([exp.company ++ strOf " | " ++ exp.title]
         ++ (if !exp.dates.isEmpty then [exp.dates] else [])
         ++ exp.bullets.map (fun b => strOf "‚Ä¢ " ++ b))))
    skills := joinSep (strOf ", ") cv.skills.hard
    education := joinSep (strOf "\n") (cv.education.map (fun e => e.degree))
    certifications := joinSep (strOf ", ") cv.certifications }

/-- The result of `fullInjectionPipeline`: either the explicit failure object
`{ success: false, error }` or the success object with its payload. -/
inductive PipelineResult where
  | failure (error : Str)
  | success (cvJSON : CV) (cvText : Str) (pdfSections : PDFSections)
      (stats : Stats) (matchScore : Nat) (matched : List Str)
      (missing : List Str)
deriving DecidableEq

/-- `Math.round((m / t) * 100)` for the match score (source line 454),
modelled as exact round-half-up on rationals; the source computes it in
floating point, but no claim depends on its value. -/
def matchScoreModel (m t : Nat) : Nat :=
  if t = 0 then 0 else (200 * m + t) / (2 * t)

/-- `fullInjectionPipeline(cvText, keywords, options)`
(source lines 430-472). -/
def fullInjectionPipeline (cvText : Str) (keywords : KeywordGroups)
    (opts : Options) (rand : Nat → Nat) : PipelineResult :=
  match parseCVToJSON cvText with
  | none => .failure (strOf "Failed to parse CV")
  | some cvJSON =>
    let keywordsJSON := parseKeywordsToJSON keywords
    let r := injectKeywords cvJSON keywordsJSON opts rand
    let docxText := exportToDocxText r.1
    let pdfSections := exportForPDFGenerator r.1
    let cvLower := lowerStr docxText
    let allKeywords := keywordsJSON.map (fun k => k.keyword)
    let matched := allKeywords.filter (fun kw => strIncludes cvLower (lowerStr kw))
    .success r.1 docxText pdfSections r.2
      (matchScoreModel matched.length allKeywords.length) matched
      (allKeywords.filter (fun kw => !strIncludes cvLower (lowerStr kw)))

/-! ## CRC-32 (`_crc32` / `_makeCRC32Table`, source lines 896-915)

Machine integers are modelled as `Nat`: every 32-bit operation of the source
(`>>>`, `^`, `&`) keeps its operands below `2 ^ 32`, so `c >>> 1` is `c / 2`,
`c & 1` is `c % 2`, `x & 0xFF` is `x % 256`, and the trailing `>>> 0` is the
identity. -/

/-- The reflected CRC-32 polynomial `0xEDB88320`. -/
def CRC_POLY : Nat := 0xEDB88320

/-- One inner iteration of the table-building loop (source line 910):
`c = (c & 1) ? (0xEDB88320 ^ (c >>> 1)) : (c >>> 1)`. -/
def crcBitstep (c : Nat) : Nat :=
  if c % 2 = 1 then CRC_POLY ^^^ (c / 2) else c / 2

/-- Eight iterations of the inner loop. -/
def crcBits8 (c : Nat) : Nat :=
  crcBitstep (crcBitstep (crcBitstep (crcBitstep
    (crcBitstep (crcBitstep (crcBitstep (crcBitstep c)))))))

/-- Entry `i` of the 256-entry table built by `_makeCRC32Table`
(source lines 905-915). -/
def crc32Table (i : Nat) : Nat := crcBits8 i

/-- One byte of the table-driven loop (source line 900):
`crc = (crc >>> 8) ^ table[(crc ^ data[i]) & 0xFF]`. -/
def crc32Step (crc b : Nat) : Nat :=
  (crc / 256) ^^^ crc32Table ((crc ^^^ b) % 256)

/-- `_crc32(data)` (source lines 896-903): seed `0xFFFFFFFF`, table-driven
update per byte, final XOR with `0xFFFFFFFF`. -/
def crc32 (data : List Nat) : Nat :=
  (data.foldl crc32Step 0xFFFFFFFF) ^^^ 0xFFFFFFFF

/-- Reference CRC-32: the table-free, bit-at-a-time definition — XOR the
byte into the state and run the polynomial reduction eight times. -/
def crcRefStep (crc b : Nat) : Nat := crcBits8 (crc ^^^ b)

/-- Reference CRC-32 checksum of a byte list. -/
def crc32Ref (data : List Nat) : Nat :=
  (data.foldl crcRefStep 0xFFFFFFFF) ^^^ 0xFFFFFFFF

/-- The bytes of an ASCII string (for CRC test vectors). -/
def asciiBytes (s : String) : List Nat := s.data.map Char.toNat

/-! ## Minimal ZIP builder (`_createMinimalZip`, source lines 788-891)

`Uint8Array` buffers are `List Nat`; `DataView.setUint16/setUint32` with
`littleEndian = true` become explicit little-endian byte decompositions. -/

/-- `setUint16(_, x, true)`: the two little-endian bytes of `x mod 2 ^ 16`. -/
def le16 (x : Nat) : List Nat := [x % 256, x / 256 % 256]

/-- `setUint32(_, x, true)`: the four little-endian bytes of `x mod 2 ^ 32`. -/
def le32 (x : Nat) : List Nat :=
  [x % 256, x / 256 % 256, x / 65536 % 256, x / 16777216 % 256]

/-- The 30-byte local file header plus the filename bytes
(source lines 799-813). -/
def localHeader (p c : List Nat) : List Nat :=
  le32 0x04034b50 ++ le16 20 ++ le16 0 ++ le16 0 ++ le16 0 ++ le16 0 ++
    le32 (crc32 c) ++ le32 c.length ++ le32 c.length ++
    le16 p.length ++ le16 0 ++ p

/-- Size in bytes of one local entry (header + name + content). -/
def entrySize (pc : List Nat × List Nat) : Nat := 30 + pc.1.length + pc.2.length

/-- The local-entries section: each entry's header followed by its content
bytes, in insertion order (source lines 874-879). -/
def localSection : List (List Nat × List Nat) → List Nat
  | [] => []
  | (p, c) :: rest => localHeader p c ++ c ++ localSection rest

/-- The accumulated `offset` after all local entries (source line 824). -/
def localSize (parts : List (List Nat × List Nat)) : Nat :=
  (parts.map entrySize).sum

/-- The 46-byte central-directory record plus the filename bytes
(source lines 830-852). -/
def cdRecord (p c : List Nat) (off : Nat) : List Nat :=
  le32 0x02014b50 ++ le16 20 ++ le16 20 ++ le16 0 ++ le16 0 ++ le16 0 ++
    le16 0 ++ le32 (crc32 c) ++ le32 c.length ++ le32 c.length ++
    le16 p.length ++ le16 0 ++ le16 0 ++ le16 0 ++ le16 0 ++ le32 0 ++
    le32 off ++ p

/-- The central directory: one record per entry, written contiguously, each
holding that entry's accumulated local offset. -/
def cdSection : List (List Nat × List Nat) → Nat → List Nat
  | [], _ => []
  | (p, c) :: rest, off =>
    cdRecord p c off ++ cdSection rest (off + 30 + p.length + c.length)

/-- Total byte size of the central directory (source line 856). -/
def cdSize (parts : List (List Nat × List Nat)) : Nat :=
  (parts.map (fun pc => 46 + pc.1.length)).sum

/-- The 22-byte end-of-central-directory record (source lines 857-867). -/
def eocd (n size off : Nat) : List Nat :=
  le32 0x06054b50 ++ le16 0 ++ le16 0 ++ le16 n ++ le16 n ++
    le32 size ++ le32 off ++ le16 0

/-- `_createMinimalZip(files)` (source lines 788-891), over already-encoded
`(pathBytes, contentBytes)` pairs: local entries, then the central
directory, then the end record. -/
def createMinimalZip (parts : List (List Nat × List Nat)) : List Nat :=
  localSection parts ++ cdSection parts 0 ++
    eocd parts.length (cdSize parts) (localSize parts)

/-! ### A conforming ZIP reader

The reader locates the end-of-central-directory record at the end of the
archive (the builder writes a zero-length comment), takes the entry count
and the central-directory offset from it, walks the central directory, and
follows each record's local-header offset to extract that entry's name and
content bytes. -/

/-- Byte at index `i` (0 beyond the end). -/
def byteAt (l : List Nat) (i : Nat) : Nat := l.getD i 0

/-- Little-endian 16-bit read. -/
def readLE16 (l : List Nat) (i : Nat) : Nat := byteAt l i + 256 * byteAt l (i + 1)

/-- Little-endian 32-bit read. -/
def readLE32 (l : List Nat) (i : Nat) : Nat :=
  byteAt l i + 256 * byteAt l (i + 1) + 65536 * byteAt l (i + 2) +
    16777216 * byteAt l (i + 3)

/-- `n` bytes starting at index `i`. -/
def sliceBytes (l : List Nat) (i n : Nat) : List Nat := (l.drop i).take n

/-- Parse the local entry whose header starts at `off`: check the signature
and extract the filename and the (stored) content bytes. -/
def readLocalAt (z : List Nat) (off : Nat) : Option (List Nat × List Nat) :=
  if readLE32 z off = 0x04034b50 then
    let nameLen := readLE16 z (off + 26)
    let extraLen := readLE16 z (off + 28)
    let compSize := readLE32 z (off + 18)
    some (sliceBytes z (off + 30) nameLen,
          sliceBytes z (off + 30 + nameLen + extraLen) compSize)
  else none

/-- Parse `n` central-directory records starting at `pos`, resolving each
one's local-header offset. -/
def readCD (z : List Nat) : Nat → Nat → Option (List (List Nat × List Nat))
  | _, 0 => some []
  | pos, n + 1 =>
    if readLE32 z pos = 0x02014b50 then
      let nameLen := readLE16 z (pos + 28)
      let extraLen := readLE16 z (pos + 30)
      let commentLen := readLE16 z (pos + 32)
      match readLocalAt z (readLE32 z (pos + 42)) with
      | some entry =>
        match readCD z (pos + 46 + nameLen + extraLen + commentLen) n with
        | some rest => some (entry :: rest)
        | none => none
      | none => none
    else none

/-- A conforming ZIP reader for archives with an empty comment: read the
end record from the last 22 bytes, then the central directory, then every
entry. -/
def readZip (z : List Nat) : Option (List (List Nat × List Nat)) :=
  if 22 ≤ z.length then
    let e := z.length - 22
    if readLE32 z e = 0x06054b50 then
      readCD z (readLE32 z (e + 16)) (readLE16 z (e + 10))
    else none
  else none

/-! ## Concrete inputs used by the evaluations below -/

/-- A degenerate random oracle (metric choice index 0 at every draw). -/
def rzero : Nat → Nat := fun _ => 0

/-- The Scenario A raw text of §8 of the spec. -/
def scenarioAText : Str :=
  strOf "JOHN SMITH\njohn@x.com\nEXPERIENCE\nAcme Co | Engineer | 2020-Present\n- Built systems.\nSKILLS\nPython, Go\nEDUCATION\nBSc CS"

/-- The document `parseCVToJSON` actually produces for Scenario A. -/
def scenarioACV : CV :=
  { personal :=
      { name := strOf "JOHN SMITH"
        location := strOf "Python, Go"
        email := strOf "john@x.com"
        phone := [], linkedin := [], github := [] }
    summary := []
    experience :=
      [{ title := strOf "Engineer"
         company := strOf "Acme Co"
         dates := strOf "2020-Present"
         bullets := [strOf "Built systems."] }]
    skills := { hard := [strOf "SKILLS", strOf "Python", strOf "Go"], soft := [] }
    education := [{ degree := strOf "BSc CS", school := [], dates := [] }]
    certifications := [] }

/-- A one-bullet document with no skills, for the double-consumption run. -/
def cvOneBullet : CV :=
  { emptyCV with experience :=
      [{ title := strOf "Engineer", company := strOf "Acme", dates := []
         bullets := [strOf "X"] }] }

/-- A high-priority keyword targeting both skills and experience, exactly as
`parseKeywordsToJSON` produces for a `highROI` keyword. -/
def kwKubernetes : Keyword :=
  { keyword := strOf "Kubernetes", priority := strOf "high"
    targets := [strOf "experience", strOf "skills"] }

/-- A `lowROI` keyword as produced by `parseKeywordsToJSON`. -/
def kwLowReact : Keyword :=
  { keyword := strOf "React", priority := strOf "low"
    targets := [strOf "summary"] }

/-- A document whose parsed skills already hold two case-insensitively equal
entries (`parseCVToJSON` dedupes only exact strings, so it can produce
such a document, e.g. from the skills line `"Go, GO"`). -/
def cvGoGO : CV :=
  { emptyCV with skills := { hard := [strOf "Go", strOf "GO"], soft := [] } }

/-- A document with a non-empty location, for the override runs. -/
def cvDublin : CV :=
  { emptyCV with personal := { emptyCV.personal with location := strOf "Dublin" } }

/-! # Theorems -/

/-! ## Generic lemmas about the deep clone and the engine's state flow -/

theorem jsonClone_eq (cv : CV) : jsonClone cv = cv := by
  simp [jsonClone, List.map_id]

/-- The fields `addSkill` leaves untouched. -/
theorem addSkill_frame (st : EngineState) (k : Keyword) :
    (addSkill st k).orig = st.orig ∧
    (addSkill st k).used = st.used ∧
    (addSkill st k).templateIdx = st.templateIdx ∧
    (addSkill st k).randCtr = st.randCtr ∧
    (addSkill st k).inj.personal = st.inj.personal ∧
    (addSkill st k).inj.experience = st.inj.experience ∧
    (addSkill st k).stats.totalInjections = st.stats.totalInjections ∧
    (addSkill st k).stats.newBulletsCreated = st.stats.newBulletsCreated ∧
    (addSkill st k).stats.bulletsModified = st.stats.bulletsModified := by
  unfold addSkill
  split <;> exact ⟨rfl, rfl, rfl, rfl, rfl, rfl, rfl, rfl, rfl⟩

/-- The skills fold leaves the same fields untouched. -/
theorem foldl_addSkill_frame (l : List Keyword) : ∀ st : EngineState,
    (l.foldl addSkill st).orig = st.orig ∧
    (l.foldl addSkill st).used = st.used ∧
    (l.foldl addSkill st).templateIdx = st.templateIdx ∧
    (l.foldl addSkill st).randCtr = st.randCtr ∧
    (l.foldl addSkill st).inj.personal = st.inj.personal ∧
    (l.foldl addSkill st).inj.experience = st.inj.experience ∧
    (l.foldl addSkill st).stats.totalInjections = st.stats.totalInjections ∧
    (l.foldl addSkill st).stats.newBulletsCreated = st.stats.newBulletsCreated ∧
    (l.foldl addSkill st).stats.bulletsModified = st.stats.bulletsModified := by
  induction l with
  | nil => intro st; exact ⟨rfl, rfl, rfl, rfl, rfl, rfl, rfl, rfl, rfl⟩
  | cons k l ih =>
    intro st
    rw [List.foldl_cons]
    obtain ⟨i1, i2, i3, i4, i5, i6, i7, i8, i9⟩ := ih (addSkill st k)
    obtain ⟨a1, a2, a3, a4, a5, a6, a7, a8, a9⟩ := addSkill_frame st k
    exact ⟨i1.trans a1, i2.trans a2, i3.trans a3, i4.trans a4, i5.trans a5,
           i6.trans a6, i7.trans a7, i8.trans a8, i9.trans a9⟩

/-- `phaseSkills` modifies only `inj.skills`, `stats.skillsAdded` and
`stats.keywordsCovered`. -/
theorem phaseSkills_frame (kws : List Keyword) (st : EngineState) :
    (phaseSkills kws st).orig = st.orig ∧
    (phaseSkills kws st).used = st.used ∧
    (phaseSkills kws st).templateIdx = st.templateIdx ∧
    (phaseSkills kws st).randCtr = st.randCtr ∧
    (phaseSkills kws st).inj.personal = st.inj.personal ∧
    (phaseSkills kws st).inj.experience = st.inj.experience ∧
    (phaseSkills kws st).stats.totalInjections = st.stats.totalInjections ∧
    (phaseSkills kws st).stats.newBulletsCreated = st.stats.newBulletsCreated ∧
    (phaseSkills kws st).stats.bulletsModified = st.stats.bulletsModified := by
  unfold phaseSkills
  obtain ⟨i1, i2, i3, i4, i5, i6, i7, i8, i9⟩ := foldl_addSkill_frame _ st
  exact ⟨i1, i2, i3, i4, i5, i6, i7, i8, i9⟩

/-- The fields `injectIntoBullet` leaves untouched: in particular the whole
of `inj` (a bullet rewrite returns the new bullet, it does not write into
the document until the entry is rebuilt). -/
theorem injectIntoBullet_frame (pool : List Keyword) (rand : Nat → Nat)
    (st : EngineState) (b : Str) :
    (injectIntoBullet pool rand st b).2.orig = st.orig ∧
    (injectIntoBullet pool rand st b).2.inj = st.inj ∧
    (injectIntoBullet pool rand st b).2.stats.newBulletsCreated =
      st.stats.newBulletsCreated ∧
    (injectIntoBullet pool rand st b).2.stats.skillsAdded =
      st.stats.skillsAdded := by
  simp only [injectIntoBullet]
  split
  · exact ⟨rfl, rfl, rfl, rfl⟩
  · split
    · exact ⟨rfl, rfl, rfl, rfl⟩
    · exact ⟨rfl, rfl, rfl, rfl⟩

/-- `processBullets` frame facts. -/
theorem processBullets_frame (pool : List Keyword) (rand : Nat → Nat) :
    ∀ (bs : List Str) (st : EngineState),
    (processBullets pool rand st bs).2.orig = st.orig ∧
    (processBullets pool rand st bs).2.inj = st.inj ∧
    (processBullets pool rand st bs).2.stats.newBulletsCreated =
      st.stats.newBulletsCreated ∧
    (processBullets pool rand st bs).2.stats.skillsAdded =
      st.stats.skillsAdded := by
  intro bs
  induction bs with
  | nil => intro st; exact ⟨rfl, rfl, rfl, rfl⟩
  | cons b bs ih =>
    intro st
    obtain ⟨a1, a2, a3, a4⟩ := injectIntoBullet_frame pool rand st b
    obtain ⟨i1, i2, i3, i4⟩ := ih (injectIntoBullet pool rand st b).2
    exact ⟨i1.trans a1, i2.trans a2, i3.trans a3, i4.trans a4⟩

/-- `processEntry` frame facts (`newBulletsCreated` may change here). -/
theorem processEntry_frame (pool highPrio : List Keyword) (rand : Nat → Nat)
    (idx : Nat) (st : EngineState) (e : ExperienceEntry) :
    (processEntry pool highPrio rand idx st e).2.orig = st.orig ∧
    (processEntry pool highPrio rand idx st e).2.inj = st.inj ∧
    (processEntry pool highPrio rand idx st e).2.stats.skillsAdded =
      st.stats.skillsAdded := by
  simp only [processEntry]
  obtain ⟨a1, a2, _, a4⟩ := processBullets_frame pool rand e.bullets st
  split
  · split
    · exact ⟨a1, a2, a4⟩
    · exact ⟨a1, a2, a4⟩
  · exact ⟨a1, a2, a4⟩

/-- `processEntries` frame facts. -/
theorem processEntries_frame (pool highPrio : List Keyword) (rand : Nat → Nat) :
    ∀ (es : List ExperienceEntry) (idx : Nat) (st : EngineState),
    (processEntries pool highPrio rand idx st es).2.orig = st.orig ∧
    (processEntries pool highPrio rand idx st es).2.inj = st.inj ∧
    (processEntries pool highPrio rand idx st es).2.stats.skillsAdded =
      st.stats.skillsAdded := by
  intro es
  induction es with
  | nil => intro idx st; exact ⟨rfl, rfl, rfl⟩
  | cons e es ih =>
    intro idx st
    obtain ⟨a1, a2, a3⟩ := processEntry_frame pool highPrio rand idx st e
    obtain ⟨i1, i2, i3⟩ :=
      ih (idx + 1) (processEntry pool highPrio rand idx st e).2
    exact ⟨i1.trans a1, i2.trans a2, i3.trans a3⟩

/-- `phaseExperience` modifies only `inj.experience` and the experience
statistics. -/
theorem phaseExperience_frame (kws : List Keyword) (rand : Nat → Nat)
    (st : EngineState) :
    (phaseExperience kws rand st).orig = st.orig ∧
    (phaseExperience kws rand st).inj.personal = st.inj.personal ∧
    (phaseExperience kws rand st).inj.skills = st.inj.skills ∧
    (phaseExperience kws rand st).stats.skillsAdded =
      st.stats.skillsAdded := by
  unfold phaseExperience
  obtain ⟨a1, a2, a3⟩ := processEntries_frame _ _ rand st.inj.experience 0 st
  refine ⟨a1, ?_, ?_, a3⟩
  · show (processEntries _ _ rand 0 st st.inj.experience).2.inj.personal = _
    rw [a2]
  · show (processEntries _ _ rand 0 st st.inj.experience).2.inj.skills = _
    rw [a2]

/-- `phaseLocation` modifies only `inj.personal.location`. -/
theorem phaseLocation_frame (opts : Options) (st : EngineState) :
    (phaseLocation opts st).orig = st.orig ∧
    (phaseLocation opts st).inj.experience = st.inj.experience ∧
    (phaseLocation opts st).inj.skills = st.inj.skills ∧
    (phaseLocation opts st).stats = st.stats := by
  unfold phaseLocation
  split
  · split <;> exact ⟨rfl, rfl, rfl, rfl⟩
  · exact ⟨rfl, rfl, rfl, rfl⟩

/-- Phases A and B never touch `inj.personal`: before the location phase,
the clone still carries the input's personal block. -/
theorem preLocation_personal (kws : List Keyword) (rand : Nat → Nat) (cv : CV) :
    (phaseExperience kws rand (phaseSkills kws (initEngineState cv))).inj.personal
      = cv.personal := by
  obtain ⟨_, e2, _, _⟩ := phaseExperience_frame kws rand (phaseSkills kws (initEngineState cv))
  obtain ⟨_, _, _, _, s5, _⟩ := phaseSkills_frame kws (initEngineState cv)
  rw [e2, s5]
  show (jsonClone cv).personal = cv.personal
  rw [jsonClone_eq]

/-- C7: For every document, keyword sequence, and options, `injectKeywords`
never mutates its input Document: the caller's object (`orig` in the state
model — the source never assigns into `cv`, only into the clone
`injectedCV`) is unchanged after the whole run, and the deep copy the
engine works on is deep-equal to the input. -/
theorem C7_inject_never_mutates_input (cv : CV) (kws : List Keyword)
    (opts : Options) (rand : Nat → Nat) :
    (runInject kws opts rand cv).orig = cv ∧ jsonClone cv = cv := by
  refine ⟨?_, jsonClone_eq cv⟩
  unfold runInject
  obtain ⟨l1, _, _, _⟩ := phaseLocation_frame opts
    (phaseExperience kws rand (phaseSkills kws (initEngineState cv)))
  obtain ⟨e1, _, _, _⟩ := phaseExperience_frame kws rand
    (phaseSkills kws (initEngineState cv))
  obtain ⟨s1, _⟩ := phaseSkills_frame kws (initEngineState cv)
  rw [l1, e1, s1]
  rfl

/-- C9 (amended): a present, non-empty `locationOverride` replaces
`personal.location`; an absent override leaves it unchanged; and — the
correction — an explicitly empty-string override is falsy in
`options.locationOverride || null` and therefore also leaves the location
unchanged, rather than overriding it. -/
theorem C9_location_override_amended (cv : CV) (kws : List Keyword)
    (rand : Nat → Nat) :
    (∀ s : Str, s ≠ [] →
      (injectKeywords cv kws ⟨some s⟩ rand).1.personal.location = s) ∧
    (injectKeywords cv kws ⟨none⟩ rand).1.personal.location =
      cv.personal.location ∧
    (injectKeywords cv kws ⟨some []⟩ rand).1.personal.location =
      cv.personal.location := by
  refine ⟨fun s hs => ?_, ?_, ?_⟩
  · show (phaseLocation ⟨some s⟩ _).inj.personal.location = s
    unfold phaseLocation
    simp only [if_neg hs]
  · show (phaseExperience kws rand (phaseSkills kws (initEngineState cv))).inj.personal.location
        = cv.personal.location
    rw [preLocation_personal]
  · show (phaseExperience kws rand (phaseSkills kws (initEngineState cv))).inj.personal.location
        = cv.personal.location
    rw [preLocation_personal]

/-- C9 counterexample: with `locationOverride` present but equal to the
empty string, the returned document keeps the input's location (here
`"Dublin"`) instead of the overridden empty value the claim requires. -/
theorem C9_counterexample :
    (injectKeywords cvDublin [] ⟨some []⟩ rzero).1.personal.location =
      strOf "Dublin" ∧ strOf "Dublin" ≠ ([] : Str) := by
  exact ⟨by decide, by decide⟩

/-- C9 witness: the amended theorem applied at a concrete non-empty
override. -/
theorem C9_witness :
    (injectKeywords cvDublin [] ⟨some (strOf "Berlin")⟩ rzero).1.personal.location
      = strOf "Berlin" :=
  (C9_location_override_amended cvDublin [] rzero).1 (strOf "Berlin") (by decide)

/-! ## The injection cap (C4) -/

/-- If `a` is in `l`, fails `p`, satisfies `q`, and `p ≤ q` on `l`, then the
`q`-count strictly exceeds the `p`-count. -/
theorem countP_succ_le {α : Type} (p q : α → Bool) :
    ∀ (l : List α) (a : α), a ∈ l → p a = false → q a = true →
      (∀ x ∈ l, p x = true → q x = true) →
      l.countP p + 1 ≤ l.countP q := by
  intro l
  induction l with
  | nil => intro a ha _ _ _; exact absurd ha (List.not_mem_nil a)
  | cons x t ih =>
    intro a ha hpa hqa hmono
    rw [List.countP_cons, List.countP_cons]
    rcases List.mem_cons.mp ha with rfl | hat
    · rw [hpa, hqa]
      have hle : t.countP p ≤ t.countP q :=
        List.countP_mono_left (fun y hy hpy => hmono y (List.mem_cons_of_mem _ hy) hpy)
      simp only [Bool.false_eq_true, if_false, if_true]
      omega
    · have h1 := ih a hat hpa hqa (fun y hy => hmono y (List.mem_cons_of_mem _ hy))
      have h2 : (if p x = true then 1 else 0) ≤ (if q x = true then 1 else 0) := by
        by_cases hx : p x = true
        · rw [if_pos hx, if_pos (hmono x (List.mem_cons_self _ _) hx)]
        · rw [if_neg hx]
          omega
      omega

/-- Extending the used set only increases the used-keyword count. -/
theorem countP_used_cons (pool : List Keyword) (used : List Str) (a : Str) :
    pool.countP (fun k => used.contains (lowerStr k.keyword)) ≤
      pool.countP (fun k => (a :: used).contains (lowerStr k.keyword)) :=
  List.countP_mono_left (fun x _ hx => by
    simp only [List.contains_cons, hx, Bool.or_true])

/-- The cap invariant: the injection total is bounded by the number of pool
keywords already marked used plus two per synthetic bullet. -/
def capInv (pool : List Keyword) (st : EngineState) : Prop :=
  st.stats.totalInjections ≤
    pool.countP (fun k => st.used.contains (lowerStr k.keyword)) +
      2 * st.stats.newBulletsCreated

/-- A bullet rewrite preserves the cap invariant: an injection marks a
previously unused pool keyword as used. -/
theorem injectIntoBullet_cap (pool : List Keyword) (rand : Nat → Nat)
    (st : EngineState) (b : Str) (h : capInv pool st) :
    capInv pool (injectIntoBullet pool rand st b).2 := by
  unfold capInv at *
  simp only [injectIntoBullet]
  split
  · exact h
  · rcases hfind : List.find? (fun k => !st.used.contains (lowerStr k.keyword) &&
        !strIncludes (lowerStr b) (lowerStr k.keyword)) pool with _ | kw
    · simp only [hfind]
      exact h
    · simp only [hfind]
      have hmem := List.mem_of_find?_eq_some hfind
      have hpred := List.find?_some hfind
      rw [Bool.and_eq_true, Bool.not_eq_true', Bool.not_eq_true'] at hpred
      have hgrow := countP_succ_le
        (fun k => st.used.contains (lowerStr k.keyword))
        (fun k => (lowerStr kw.keyword :: st.used).contains (lowerStr k.keyword))
        pool kw hmem hpred.1 (by simp) (by
          intro x _ hx
          simp only at hx
          simp only [List.contains_cons, hx, Bool.or_true])
      simp only [pickMetric]
      omega

/-- `processBullets` preserves the cap invariant. -/
theorem processBullets_cap (pool : List Keyword) (rand : Nat → Nat) :
    ∀ (bs : List Str) (st : EngineState), capInv pool st →
      capInv pool (processBullets pool rand st bs).2 := by
  intro bs
  induction bs with
  | nil => intro st h; exact h
  | cons b bs ih =>
    intro st h
    exact ih _ (injectIntoBullet_cap pool rand st b h)

/-- `processEntry` preserves the cap invariant: the synthetic bullet adds 2
to the total and 1 to `newBulletsCreated`, and only grows the used set. -/
theorem processEntry_cap (pool highPrio : List Keyword) (rand : Nat → Nat)
    (idx : Nat) (st : EngineState) (e : ExperienceEntry)
    (h : capInv pool st) :
    capInv pool (processEntry pool highPrio rand idx st e).2 := by
  have h1 := processBullets_cap pool rand e.bullets st h
  unfold capInv at *
  simp only [processEntry]
  split
  · rename_i k1 k2 tl heq
    split
    · simp only [pickMetric]
      have m1 := countP_used_cons pool
        (processBullets pool rand st e.bullets).2.used (lowerStr k1.keyword)
      have m2 := countP_used_cons pool
        (lowerStr k1.keyword :: (processBullets pool rand st e.bullets).2.used)
        (lowerStr k2.keyword)
      omega
    · exact h1
  · exact h1

/-- `processEntries` preserves the cap invariant. -/
theorem processEntries_cap (pool highPrio : List Keyword) (rand : Nat → Nat) :
    ∀ (es : List ExperienceEntry) (idx : Nat) (st : EngineState),
      capInv pool st →
      capInv pool (processEntries pool highPrio rand idx st es).2 := by
  intro es
  induction es with
  | nil => intro idx st h; exact h
  | cons e es ih =>
    intro idx st h
    exact ih _ _ (processEntry_cap pool highPrio rand idx st e h)

/-- Entries with a non-zero index never create a synthetic bullet. -/
theorem processEntry_nb_pos (pool highPrio : List Keyword) (rand : Nat → Nat)
    (idx : Nat) (hidx : idx ≠ 0) (st : EngineState) (e : ExperienceEntry) :
    (processEntry pool highPrio rand idx st e).2.stats.newBulletsCreated =
      st.stats.newBulletsCreated := by
  obtain ⟨_, _, h3, _⟩ := processBullets_frame pool rand e.bullets st
  simp only [processEntry]
  split
  · rw [if_neg (by simp [hidx])]
    exact h3
  · show (processBullets pool rand st e.bullets).2.stats.newBulletsCreated = _
    exact h3

/-- Any single entry adds at most one synthetic bullet. -/
theorem processEntry_nb_le (pool highPrio : List Keyword) (rand : Nat → Nat)
    (idx : Nat) (st : EngineState) (e : ExperienceEntry) :
    (processEntry pool highPrio rand idx st e).2.stats.newBulletsCreated ≤
      st.stats.newBulletsCreated + 1 := by
  obtain ⟨_, _, h3, _⟩ := processBullets_frame pool rand e.bullets st
  simp only [processEntry]
  split
  · split
    · simp only [pickMetric]
      show (processBullets pool rand st e.bullets).2.stats.newBulletsCreated + 1 ≤ _
      omega
    · show (processBullets pool rand st e.bullets).2.stats.newBulletsCreated ≤ _
      omega
  · show (processBullets pool rand st e.bullets).2.stats.newBulletsCreated ≤ _
    omega

/-- From index 1 on, `newBulletsCreated` never changes. -/
theorem processEntries_nb_pos (pool highPrio : List Keyword) (rand : Nat → Nat) :
    ∀ (es : List ExperienceEntry) (idx : Nat), idx ≠ 0 → ∀ st : EngineState,
      (processEntries pool highPrio rand idx st es).2.stats.newBulletsCreated =
        st.stats.newBulletsCreated := by
  intro es
  induction es with
  | nil => intro idx _ st; rfl
  | cons e es ih =>
    intro idx hidx st
    show (processEntries pool highPrio rand (idx + 1)
        (processEntry pool highPrio rand idx st e).2 es).2.stats.newBulletsCreated =
      st.stats.newBulletsCreated
    rw [ih (idx + 1) (Nat.succ_ne_zero idx),
      processEntry_nb_pos pool highPrio rand idx hidx]

/-- The whole experience walk (starting at index 0) creates at most one
synthetic bullet. -/
theorem processEntries_nb_zero (pool highPrio : List Keyword) (rand : Nat → Nat)
    (es : List ExperienceEntry) (st : EngineState) :
    (processEntries pool highPrio rand 0 st es).2.stats.newBulletsCreated ≤
      st.stats.newBulletsCreated + 1 := by
  cases es with
  | nil => exact Nat.le_succ_of_le (Nat.le_refl _)
  | cons e es =>
    show (processEntries pool highPrio rand (0 + 1)
        (processEntry pool highPrio rand 0 st e).2 es).2.stats.newBulletsCreated ≤
      st.stats.newBulletsCreated + 1
    rw [processEntries_nb_pos pool highPrio rand es (0 + 1) (by omega)]
    exact processEntry_nb_le pool highPrio rand 0 st e

/-- C4: for every input document and every keyword sequence (any size, any
priority mix) and any random draws, a single `injectKeywords` run satisfies
`stats.totalInjections ≤ MAX_TOTAL_INJECTIONS` (15).  In fact the pool of
experience keywords never exceeds 5 and at most one synthetic bullet (worth
2) is created, so the total is at most 7. -/
theorem C4_injection_cap (cv : CV) (kws : List Keyword) (opts : Options)
    (rand : Nat → Nat) :
    (injectKeywords cv kws opts rand).2.totalInjections ≤
      MAX_TOTAL_INJECTIONS := by
  show (phaseLocation opts _).stats.totalInjections ≤ _
  obtain ⟨_, _, _, l4⟩ := phaseLocation_frame opts
    (phaseExperience kws rand (phaseSkills kws (initEngineState cv)))
  rw [l4]
  set stS := phaseSkills kws (initEngineState cv) with hstS
  obtain ⟨_, s2, _, _, _, _, s7, s8, _⟩ := phaseSkills_frame kws (initEngineState cv)
  have htotal0 : stS.stats.totalInjections = 0 := s7
  have hnb0 : stS.stats.newBulletsCreated = 0 := s8
  set highPrio := kws.filter (fun k => k.priority = strOf "high") with hhp
  set medPrio := kws.filter (fun k => k.priority = strOf "medium") with hmp
  set pool := (highPrio.take 3 ++ medPrio.take 2).filter
    (fun k => k.targets.contains (strOf "experience")) with hpool
  show (processEntries pool highPrio rand 0 stS stS.inj.experience).2.stats.totalInjections ≤ _
  have hinv : capInv pool stS := by
    unfold capInv
    rw [htotal0]
    exact Nat.zero_le _
  have hfin := processEntries_cap pool highPrio rand stS.inj.experience 0 stS hinv
  have hnb := processEntries_nb_zero pool highPrio rand stS.inj.experience stS
  rw [hnb0] at hnb
  have hcnt : pool.countP (fun k =>
      (processEntries pool highPrio rand 0 stS stS.inj.experience).2.used.contains
        (lowerStr k.keyword)) ≤ pool.length := List.countP_le_length _
  have hpoolLen : pool.length ≤ 5 := by
    calc pool.length ≤ (highPrio.take 3 ++ medPrio.take 2).length :=
          List.Sublist.length_le (List.filter_sublist _)
      _ = (highPrio.take 3).length + (medPrio.take 2).length := List.length_append _ _
      _ ≤ 3 + 2 := Nat.add_le_add (List.length_take_le 3 highPrio)
            (List.length_take_le 2 medPrio)
  unfold capInv at hfin
  show (processEntries pool highPrio rand 0 stS stS.inj.experience).2.stats.totalInjections ≤ 15
  omega

/-! ## Low-priority keywords are never consumed (C10) -/

/-- `addSkill` adds to `keywordsCovered` only the processed keyword. -/
theorem addSkill_covered (st : EngineState) (k : Keyword) :
    ∀ c ∈ (addSkill st k).stats.keywordsCovered,
      c ∈ st.stats.keywordsCovered ∨ c = k.keyword := by
  unfold addSkill
  split
  · exact fun c hc => Or.inl hc
  · intro c hc
    rcases List.mem_append.mp hc with h | h
    · exact Or.inl h
    · exact Or.inr (List.mem_singleton.mp h)

/-- The skills fold adds only keywords of its input list to
`keywordsCovered`. -/
theorem foldl_addSkill_covered (l : List Keyword) : ∀ st : EngineState,
    ∀ c ∈ (l.foldl addSkill st).stats.keywordsCovered,
      c ∈ st.stats.keywordsCovered ∨ ∃ k ∈ l, k.keyword = c := by
  induction l with
  | nil => exact fun st c hc => Or.inl hc
  | cons k l ih =>
    intro st c hc
    rcases ih (addSkill st k) c hc with h | ⟨k2, hk2, he⟩
    · rcases addSkill_covered st k c h with h2 | h2
      · exact Or.inl h2
      · exact Or.inr ⟨k, List.mem_cons_self _ _, h2.symm⟩
    · exact Or.inr ⟨k2, List.mem_cons_of_mem _ hk2, he⟩

/-- A bullet rewrite adds only pool keywords to `keywordsCovered`. -/
theorem injectIntoBullet_covered (pool : List Keyword) (rand : Nat → Nat)
    (st : EngineState) (b : Str) :
    ∀ c ∈ (injectIntoBullet pool rand st b).2.stats.keywordsCovered,
      c ∈ st.stats.keywordsCovered ∨ ∃ k ∈ pool, k.keyword = c := by
  simp only [injectIntoBullet]
  split
  · exact fun c hc => Or.inl hc
  · rcases hfind : List.find? (fun k => !st.used.contains (lowerStr k.keyword) &&
        !strIncludes (lowerStr b) (lowerStr k.keyword)) pool with _ | kw
    · simp only [hfind]
      exact fun c hc => Or.inl hc
    · simp only [hfind, pickMetric]
      intro c hc
      rcases List.mem_append.mp hc with h | h
      · exact Or.inl h
      · exact Or.inr ⟨kw, List.mem_of_find?_eq_some hfind, (List.mem_singleton.mp h).symm⟩

/-- `processBullets` adds only pool keywords to `keywordsCovered`. -/
theorem processBullets_covered (pool : List Keyword) (rand : Nat → Nat) :
    ∀ (bs : List Str) (st : EngineState),
      ∀ c ∈ (processBullets pool rand st bs).2.stats.keywordsCovered,
        c ∈ st.stats.keywordsCovered ∨ ∃ k ∈ pool, k.keyword = c := by
  intro bs
  induction bs with
  | nil => exact fun st c hc => Or.inl hc
  | cons b bs ih =>
    intro st c hc
    rcases ih (injectIntoBullet pool rand st b).2 c hc with h | h
    · exact injectIntoBullet_covered pool rand st b c h
    · exact Or.inr h

/-- `processEntry` adds only pool keywords or high-priority keywords to
`keywordsCovered`. -/
theorem processEntry_covered (pool highPrio : List Keyword) (rand : Nat → Nat)
    (idx : Nat) (st : EngineState) (e : ExperienceEntry) :
    ∀ c ∈ (processEntry pool highPrio rand idx st e).2.stats.keywordsCovered,
      c ∈ st.stats.keywordsCovered ∨ (∃ k ∈ pool, k.keyword = c) ∨
        ∃ k ∈ highPrio, k.keyword = c := by
  have hb := processBullets_covered pool rand e.bullets st
  simp only [processEntry]
  split
  · rename_i k1 k2 tl heq
    split
    · simp only [pickMetric]
      intro c hc
      rcases List.mem_append.mp hc with h | h
      · rcases hb c h with h2 | h2
        · exact Or.inl h2
        · exact Or.inr (Or.inl h2)
      · have hk1 : k1 ∈ highPrio := by
          have : k1 ∈ List.filter (fun k =>
              k.targets.contains (strOf "experience") &&
              !(processBullets pool rand st e.bullets).2.used.contains
                (lowerStr k.keyword)) highPrio := by
            rw [heq]; exact List.mem_cons_self _ _
          exact (List.mem_filter.mp this).1
        have hk2 : k2 ∈ highPrio := by
          have : k2 ∈ List.filter (fun k =>
              k.targets.contains (strOf "experience") &&
              !(processBullets pool rand st e.bullets).2.used.contains
                (lowerStr k.keyword)) highPrio := by
            rw [heq]; exact List.mem_cons_of_mem _ (List.mem_cons_self _ _)
          exact (List.mem_filter.mp this).1
        rcases List.mem_cons.mp h with rfl | h3
        · exact Or.inr (Or.inr ⟨k1, hk1, rfl⟩)
        · exact Or.inr (Or.inr ⟨k2, hk2, (List.mem_singleton.mp h3).symm⟩)
    · intro c hc
      rcases hb c hc with h | h
      · exact Or.inl h
      · exact Or.inr (Or.inl h)
  · intro c hc
    rcases hb c hc with h | h
    · exact Or.inl h
    · exact Or.inr (Or.inl h)

/-- `processEntries` adds only pool keywords or high-priority keywords. -/
theorem processEntries_covered (pool highPrio : List Keyword) (rand : Nat → Nat) :
    ∀ (es : List ExperienceEntry) (idx : Nat) (st : EngineState),
      ∀ c ∈ (processEntries pool highPrio rand idx st es).2.stats.keywordsCovered,
        c ∈ st.stats.keywordsCovered ∨ (∃ k ∈ pool, k.keyword = c) ∨
          ∃ k ∈ highPrio, k.keyword = c := by
  intro es
  induction es with
  | nil => exact fun idx st c hc => Or.inl hc
  | cons e es ih =>
    intro idx st c hc
    rcases ih (idx + 1) (processEntry pool highPrio rand idx st e).2 c hc with h | h
    · exact processEntry_covered pool highPrio rand idx st e c h
    · exact Or.inr h

/-- With an empty pool a bullet is returned unchanged and the state is
untouched. -/
theorem injectIntoBullet_nil (rand : Nat → Nat) (st : EngineState) (b : Str) :
    injectIntoBullet [] rand st b = (b, st) := by
  simp only [injectIntoBullet]
  split <;> rfl

/-- With an empty pool the bullet walk is the identity. -/
theorem processBullets_nil (rand : Nat → Nat) :
    ∀ (bs : List Str) (st : EngineState),
      processBullets [] rand st bs = (bs, st) := by
  intro bs
  induction bs with
  | nil => intro st; rfl
  | cons b bs ih =>
    intro st
    show ((injectIntoBullet [] rand st b).1 ::
        (processBullets [] rand (injectIntoBullet [] rand st b).2 bs).1,
      (processBullets [] rand (injectIntoBullet [] rand st b).2 bs).2) = _
    rw [injectIntoBullet_nil]
    rw [ih st]

/-- With an empty pool and no high-priority keywords an entry passes
through unchanged. -/
theorem processEntry_nil (rand : Nat → Nat) (idx : Nat) (st : EngineState)
    (e : ExperienceEntry) :
    processEntry [] [] rand idx st e = (e, st) := by
  simp only [processEntry, processBullets_nil, List.filter_nil]

/-- With an empty pool and no high-priority keywords the experience walk is
the identity. -/
theorem processEntries_nil (rand : Nat → Nat) :
    ∀ (es : List ExperienceEntry) (idx : Nat) (st : EngineState),
      processEntries [] [] rand idx st es = (es, st) := by
  intro es
  induction es with
  | nil => intro idx st; rfl
  | cons e es ih =>
    intro idx st
    show ((processEntry [] [] rand idx st e).1 ::
        (processEntries [] [] rand (idx + 1) (processEntry [] [] rand idx st e).2 es).1,
      (processEntries [] [] rand (idx + 1) (processEntry [] [] rand idx st e).2 es).2) = _
    rw [processEntry_nil, ih]

/-- A keyword of an all-low sequence fails the `high` filter. -/
theorem filter_high_nil (kws : List Keyword)
    (h : ∀ k ∈ kws, k.priority = strOf "low") :
    kws.filter (fun k => k.priority = strOf "high") = [] := by
  rw [List.filter_eq_nil_iff]
  intro k hk
  rw [h k hk]
  decide

/-- A keyword of an all-low sequence fails the `medium` filter. -/
theorem filter_medium_nil (kws : List Keyword)
    (h : ∀ k ∈ kws, k.priority = strOf "low") :
    kws.filter (fun k => k.priority = strOf "medium") = [] := by
  rw [List.filter_eq_nil_iff]
  intro k hk
  rw [h k hk]
  decide

/-- The initial engine state, with the clone identified with the input. -/
theorem initEngineState_eq (cv : CV) :
    initEngineState cv =
      { orig := cv, inj := cv, stats := stats0, used := []
        templateIdx := 0, randCtr := 0 } := by
  unfold initEngineState
  rw [jsonClone_eq]

/-- C10 (implicit claim): a keyword normalized with priority `low` (targets
`{summary}`) is never consumed by `injectKeywords`.  Every entry of
`stats.keywordsCovered` stems from a keyword of priority `high` or `medium`;
and when the sequence holds only low-priority keywords, the stats stay at
zero, no bullet is touched or created (the experience section is returned
verbatim), and the skills list only undergoes the unconditional exact-string
dedup. -/
theorem C10_low_priority_never_consumed (cv : CV) (kws : List Keyword)
    (opts : Options) (rand : Nat → Nat) :
    (∀ c ∈ (injectKeywords cv kws opts rand).2.keywordsCovered,
      ∃ k, k ∈ kws ∧ k.keyword = c ∧
        (k.priority = strOf "high" ∨ k.priority = strOf "medium")) ∧
    ((∀ k ∈ kws, k.priority = strOf "low") →
      (injectKeywords cv kws opts rand).2 = stats0 ∧
      (injectKeywords cv kws opts rand).1.experience = cv.experience ∧
      (injectKeywords cv kws opts rand).1.skills.hard =
        dedupeExact cv.skills.hard) := by
  obtain ⟨_, l2, l3, l4⟩ := phaseLocation_frame opts
    (phaseExperience kws rand (phaseSkills kws (initEngineState cv)))
  constructor
  · intro c hc
    have hc2 : c ∈ (phaseExperience kws rand
        (phaseSkills kws (initEngineState cv))).stats.keywordsCovered := by
      have : (injectKeywords cv kws opts rand).2.keywordsCovered =
          (phaseExperience kws rand
            (phaseSkills kws (initEngineState cv))).stats.keywordsCovered := by
        show (phaseLocation opts _).stats.keywordsCovered = _
        rw [l4]
      rwa [this] at hc
    set stS := phaseSkills kws (initEngineState cv) with hstS
    set highPrio := kws.filter (fun k => k.priority = strOf "high") with hhp
    set medPrio := kws.filter (fun k => k.priority = strOf "medium") with hmp
    set pool := (highPrio.take 3 ++ medPrio.take 2).filter
      (fun k => k.targets.contains (strOf "experience")) with hpool
    have hc3 : c ∈ stS.stats.keywordsCovered ∨ (∃ k ∈ pool, k.keyword = c) ∨
        ∃ k ∈ highPrio, k.keyword = c :=
      processEntries_covered pool highPrio rand stS.inj.experience 0 stS c hc2
    have hhigh : ∀ k ∈ highPrio, k ∈ kws ∧ k.priority = strOf "high" := by
      intro k hk
      have := List.mem_filter.mp (hhp ▸ hk)
      exact ⟨this.1, of_decide_eq_true this.2⟩
    have hmed : ∀ k ∈ medPrio, k ∈ kws ∧ k.priority = strOf "medium" := by
      intro k hk
      have := List.mem_filter.mp (hmp ▸ hk)
      exact ⟨this.1, of_decide_eq_true this.2⟩
    have hpoolSrc : ∀ k ∈ pool, k ∈ kws ∧
        (k.priority = strOf "high" ∨ k.priority = strOf "medium") := by
      intro k hk
      have hk2 := (List.mem_filter.mp (hpool ▸ hk)).1
      rcases List.mem_append.mp hk2 with h | h
      · have := hhigh k (List.mem_of_mem_take h)
        exact ⟨this.1, Or.inl this.2⟩
      · have := hmed k (List.mem_of_mem_take h)
        exact ⟨this.1, Or.inr this.2⟩
    rcases hc3 with h | ⟨k, hk, he⟩ | ⟨k, hk, he⟩
    · -- phase A: keywords from skillsToAdd ⊆ highPrio
      have hsk : c ∈ (initEngineState cv).stats.keywordsCovered ∨
          ∃ k ∈ (highPrio.filter (fun k =>
              k.targets.contains (strOf "skills"))).take MAX_HIGH_PRIO_SKILLS,
            k.keyword = c := by
        have := foldl_addSkill_covered
          ((highPrio.filter (fun k => k.targets.contains (strOf "skills"))).take
            MAX_HIGH_PRIO_SKILLS) (initEngineState cv) c
        apply this
        have hcov : stS.stats.keywordsCovered =
            (((highPrio.filter (fun k => k.targets.contains (strOf "skills"))).take
              MAX_HIGH_PRIO_SKILLS).foldl addSkill
                (initEngineState cv)).stats.keywordsCovered := rfl
        rwa [hcov] at h
      rcases hsk with h2 | ⟨k, hk, he⟩
      · exact absurd h2 (List.not_mem_nil c)
      · have hk2 : k ∈ highPrio := (List.mem_filter.mp (List.mem_of_mem_take hk)).1
        have := hhigh k hk2
        exact ⟨k, this.1, he, Or.inl this.2⟩
    · have := hpoolSrc k hk
      exact ⟨k, this.1, he, this.2⟩
    · have := hhigh k hk
      exact ⟨k, this.1, he, Or.inl this.2⟩
  · intro hlow
    have hh := filter_high_nil kws hlow
    have hm := filter_medium_nil kws hlow
    have hstA : phaseSkills kws (initEngineState cv) =
        { orig := cv, inj := { cv with skills :=
            { hard := dedupeExact cv.skills.hard, soft := cv.skills.soft } }
          stats := stats0, used := [], templateIdx := 0, randCtr := 0 } := by
      unfold phaseSkills
      rw [hh]
      simp only [List.filter_nil, List.take_nil, List.foldl_nil]
      rw [initEngineState_eq]
    have hpool : ((kws.filter (fun k => k.priority = strOf "high")).take 3 ++
        (kws.filter (fun k => k.priority = strOf "medium")).take 2).filter
          (fun k => k.targets.contains (strOf "experience")) = [] := by
      rw [hh, hm]
      rfl
    have hstE : phaseExperience kws rand (phaseSkills kws (initEngineState cv)) =
        phaseSkills kws (initEngineState cv) := by
      simp only [phaseExperience]
      rw [hpool, hh]
      rw [processEntries_nil]
    refine ⟨?_, ?_, ?_⟩
    · show (phaseLocation opts _).stats = stats0
      rw [l4, hstE, hstA]
    · show (phaseLocation opts _).inj.experience = cv.experience
      rw [l2, hstE, hstA]
    · show (phaseLocation opts _).inj.skills.hard = dedupeExact cv.skills.hard
      have : (phaseLocation opts (phaseExperience kws rand
          (phaseSkills kws (initEngineState cv)))).inj.skills =
          (phaseExperience kws rand (phaseSkills kws (initEngineState cv))).inj.skills := l3
      rw [this, hstE, hstA]

/-- C10 witness: a concrete all-low run consumes nothing. -/
theorem C10_witness :
    (injectKeywords cvOneBullet [kwLowReact] ⟨none⟩ rzero).2 = stats0 ∧
    (injectKeywords cvOneBullet [kwLowReact] ⟨none⟩ rzero).1.experience =
      cvOneBullet.experience ∧
    (injectKeywords cvOneBullet [kwLowReact] ⟨none⟩ rzero).1.skills.hard =
      dedupeExact cvOneBullet.skills.hard :=
  (C10_low_priority_never_consumed cvOneBullet [kwLowReact] ⟨none⟩ rzero).2
    (by decide)

/-! ## Case-insensitive skills dedup (C2) -/

/-- Bridging `List.contains` on model strings with membership. -/
theorem strContains_iff (l : List Str) (a : Str) : l.contains a = true ↔ a ∈ l := by
  induction l with
  | nil => simp
  | cons x t ih => simp [List.contains_cons, ih]

/-- `[...new Set(xs)]` yields a sublist of the input. -/
theorem dedupeGo_sublist (seen : List Str) : ∀ l : List Str,
    List.Sublist (dedupeGo seen l) l := by
  intro l
  induction l generalizing seen with
  | nil => exact List.Sublist.refl []
  | cons x xs ih =>
    show List.Sublist (if seen.contains x then dedupeGo seen xs
          else x :: dedupeGo (x :: seen) xs) (x :: xs)
    split
    · exact List.Sublist.cons x (ih seen)
    · exact List.Sublist.cons₂ x (ih (x :: seen))

/-- `dedupeExact` yields a sublist of the input. -/
theorem dedupeExact_sublist (l : List Str) : List.Sublist (dedupeExact l) l :=
  dedupeGo_sublist [] l

/-- `addSkill` preserves case-insensitive distinctness of `skills.hard`:
a keyword is appended only when no existing entry matches it
case-insensitively. -/
theorem addSkill_hard_pairwise (st : EngineState) (k : Keyword)
    (h : st.inj.skills.hard.Pairwise (fun a b => lowerStr a ≠ lowerStr b)) :
    (addSkill st k).inj.skills.hard.Pairwise
      (fun a b => lowerStr a ≠ lowerStr b) := by
  unfold addSkill
  split
  · exact h
  · rename_i hcond
    rw [List.pairwise_append]
    refine ⟨h, List.pairwise_singleton _ _, ?_⟩
    intro a ha b hb heq
    rw [List.mem_singleton.mp hb] at heq
    exact hcond (List.any_eq_true.mpr ⟨a, ha, decide_eq_true heq⟩)

/-- The skills fold preserves case-insensitive distinctness. -/
theorem foldl_addSkill_hard_pairwise (l : List Keyword) : ∀ st : EngineState,
    st.inj.skills.hard.Pairwise (fun a b => lowerStr a ≠ lowerStr b) →
    (l.foldl addSkill st).inj.skills.hard.Pairwise
      (fun a b => lowerStr a ≠ lowerStr b) := by
  induction l with
  | nil => exact fun st h => h
  | cons k l ih =>
    intro st h
    exact ih (addSkill st k) (addSkill_hard_pairwise st k h)

/-- C2 (amended): the `skills.hard` list of the injected document contains
no two case-insensitively equal entries, provided the input document's own
`skills.hard` already satisfies this.  (The final dedup of the source is the
exact-string `new Set`, so case-insensitive duplicates already present in
the input survive — the unconditional claim fails, see the
counterexample.) -/
theorem C2_skills_dedup_amended (cv : CV) (kws : List Keyword) (opts : Options)
    (rand : Nat → Nat)
    (h : cv.skills.hard.Pairwise (fun a b => lowerStr a ≠ lowerStr b)) :
    (injectKeywords cv kws opts rand).1.skills.hard.Pairwise
      (fun a b => lowerStr a ≠ lowerStr b) := by
  obtain ⟨_, _, l3, _⟩ := phaseLocation_frame opts
    (phaseExperience kws rand (phaseSkills kws (initEngineState cv)))
  obtain ⟨_, _, e3, _⟩ := phaseExperience_frame kws rand
    (phaseSkills kws (initEngineState cv))
  have hres : (injectKeywords cv kws opts rand).1.skills.hard =
      (phaseSkills kws (initEngineState cv)).inj.skills.hard := by
    show (phaseLocation opts _).inj.skills.hard = _
    rw [l3, e3]
  rw [hres]
  show (dedupeExact ((((kws.filter (fun k => k.priority = strOf "high")).filter
      (fun k => k.targets.contains (strOf "skills"))).take
        MAX_HIGH_PRIO_SKILLS).foldl addSkill
          (initEngineState cv)).inj.skills.hard).Pairwise _
  refine List.Pairwise.sublist (dedupeExact_sublist _) ?_
  refine foldl_addSkill_hard_pairwise _ (initEngineState cv) ?_
  rw [initEngineState_eq]
  exact h

/-- C2 counterexample: on an input document whose parsed skills already hold
`"Go"` and `"GO"` (the parser dedupes case-sensitively), `injectKeywords`
returns a `skills.hard` with two distinct entries that are equal under
case-insensitive comparison — the unconditional claim is false. -/
theorem C2_counterexample :
    (injectKeywords cvGoGO [] ⟨none⟩ rzero).1.skills.hard =
      [strOf "Go", strOf "GO"] ∧
    lowerStr (strOf "Go") = lowerStr (strOf "GO") ∧
    strOf "Go" ≠ strOf "GO" :=
  ⟨by decide, by decide, by decide⟩

/-- C2 witness: the amended theorem applied to a concrete document with
case-insensitively distinct skills. -/
theorem C2_witness :
    (injectKeywords cvOneBullet [kwKubernetes] ⟨none⟩ rzero).1.skills.hard.Pairwise
      (fun a b => lowerStr a ≠ lowerStr b) :=
  C2_skills_dedup_amended cvOneBullet [kwKubernetes] ⟨none⟩ rzero List.Pairwise.nil

/-! ## Keyword consumption multiplicity (C1) -/

/-- A list of pairwise case-insensitively distinct strings holds at most one
entry with any given lowercase form. -/
theorem countP_low_le_one (t : Str) : ∀ l : List Str,
    l.Pairwise (fun a b => lowerStr a ≠ lowerStr b) →
    l.countP (fun c => lowerStr c = t) ≤ 1 := by
  intro l
  induction l with
  | nil => intro _; simp
  | cons x xs ih =>
    intro hpw
    rcases List.pairwise_cons.mp hpw with ⟨hx, hxs⟩
    rw [List.countP_cons]
    by_cases hxt : lowerStr x = t
    · have hzero : xs.countP (fun c => lowerStr c = t) = 0 := by
        rw [List.countP_eq_zero]
        intro y hy
        simp only [decide_eq_true_eq]
        rw [← hxt]
        exact fun hcontra => hx y hy hcontra.symm
      rw [hzero]
      simp [hxt]
    · have := ih hxs
      simp [hxt]
      omega

/-- Phase A invariant: covered keywords are pairwise case-insensitively
distinct and each one is (case-insensitively) present in `skills.hard`. -/
theorem addSkill_covered_inv (st : EngineState) (k : Keyword)
    (h1 : st.stats.keywordsCovered.Pairwise (fun a b => lowerStr a ≠ lowerStr b))
    (h2 : ∀ c ∈ st.stats.keywordsCovered,
      lowerStr c ∈ st.inj.skills.hard.map lowerStr) :
    (addSkill st k).stats.keywordsCovered.Pairwise
      (fun a b => lowerStr a ≠ lowerStr b) ∧
    ∀ c ∈ (addSkill st k).stats.keywordsCovered,
      lowerStr c ∈ (addSkill st k).inj.skills.hard.map lowerStr := by
  unfold addSkill
  split
  · exact ⟨h1, h2⟩
  · rename_i hcond
    constructor
    · rw [List.pairwise_append]
      refine ⟨h1, List.pairwise_singleton _ _, ?_⟩
      intro a ha b hb heq
      rw [List.mem_singleton.mp hb] at heq
      have := h2 a ha
      rw [heq] at this
      rcases List.mem_map.mp this with ⟨s, hs, hlow⟩
      exact hcond (List.any_eq_true.mpr ⟨s, hs, decide_eq_true hlow⟩)
    · intro c hc
      rw [List.map_append]
      rcases List.mem_append.mp hc with h | h
      · exact List.mem_append_left _ (h2 c h)
      · rw [List.mem_singleton.mp h]
        exact List.mem_append_right _ (by simp)

/-- The skills fold maintains the phase A invariant. -/
theorem foldl_addSkill_covered_inv (l : List Keyword) : ∀ st : EngineState,
    st.stats.keywordsCovered.Pairwise (fun a b => lowerStr a ≠ lowerStr b) →
    (∀ c ∈ st.stats.keywordsCovered,
      lowerStr c ∈ st.inj.skills.hard.map lowerStr) →
    (l.foldl addSkill st).stats.keywordsCovered.Pairwise
      (fun a b => lowerStr a ≠ lowerStr b) := by
  induction l with
  | nil => exact fun st h1 _ => h1
  | cons k l ih =>
    intro st h1 h2
    obtain ⟨g1, g2⟩ := addSkill_covered_inv st k h1 h2
    exact ih (addSkill st k) g1 g2

/-- Phase B invariant, one bullet: the covered list stays `A0` plus a
pairwise case-insensitively distinct tail whose members are all marked
used. -/
theorem injectIntoBullet_covered_inv (pool : List Keyword) (rand : Nat → Nat)
    (st : EngineState) (b : Str) (A0 tail : List Str)
    (hcov : st.stats.keywordsCovered = A0 ++ tail)
    (hpw : tail.Pairwise (fun a b => lowerStr a ≠ lowerStr b))
    (hused : ∀ c ∈ tail, lowerStr c ∈ st.used) :
    ∃ tail2,
      (injectIntoBullet pool rand st b).2.stats.keywordsCovered = A0 ++ tail2 ∧
      tail2.Pairwise (fun a b => lowerStr a ≠ lowerStr b) ∧
      ∀ c ∈ tail2, lowerStr c ∈ (injectIntoBullet pool rand st b).2.used := by
  simp only [injectIntoBullet]
  split
  · exact ⟨tail, hcov, hpw, hused⟩
  · rcases hfind : List.find? (fun k => !st.used.contains (lowerStr k.keyword) &&
        !strIncludes (lowerStr b) (lowerStr k.keyword)) pool with _ | kw
    · simp only [hfind]
      exact ⟨tail, hcov, hpw, hused⟩
    · simp only [hfind, pickMetric]
      have hpred := List.find?_some hfind
      rw [Bool.and_eq_true, Bool.not_eq_true', Bool.not_eq_true'] at hpred
      have hnotmem : lowerStr kw.keyword ∉ st.used := by
        intro hmem
        rw [(strContains_iff st.used (lowerStr kw.keyword)).mpr hmem] at hpred
        exact Bool.noConfusion hpred.1
      refine ⟨tail ++ [kw.keyword], ?_, ?_, ?_⟩
      · rw [hcov, List.append_assoc]
      · rw [List.pairwise_append]
        refine ⟨hpw, List.pairwise_singleton _ _, ?_⟩
        intro a ha c hc heq
        rw [List.mem_singleton.mp hc] at heq
        exact hnotmem (heq ▸ hused a ha)
      · intro c hc
        rcases List.mem_append.mp hc with h | h
        · exact List.mem_cons_of_mem _ (hused c h)
        · rw [List.mem_singleton.mp h]
          exact List.mem_cons_self _ _

/-- Phase B invariant through a bullet list. -/
theorem processBullets_covered_inv (pool : List Keyword) (rand : Nat → Nat) :
    ∀ (bs : List Str) (st : EngineState) (A0 tail : List Str),
      st.stats.keywordsCovered = A0 ++ tail →
      tail.Pairwise (fun a b => lowerStr a ≠ lowerStr b) →
      (∀ c ∈ tail, lowerStr c ∈ st.used) →
      ∃ tail2,
        (processBullets pool rand st bs).2.stats.keywordsCovered = A0 ++ tail2 ∧
        tail2.Pairwise (fun a b => lowerStr a ≠ lowerStr b) ∧
        ∀ c ∈ tail2, lowerStr c ∈ (processBullets pool rand st bs).2.used := by
  intro bs
  induction bs with
  | nil => exact fun st A0 tail hcov hpw hused => ⟨tail, hcov, hpw, hused⟩
  | cons b bs ih =>
    intro st A0 tail hcov hpw hused
    obtain ⟨t1, hc1, hp1, hu1⟩ :=
      injectIntoBullet_covered_inv pool rand st b A0 tail hcov hpw hused
    exact ih (injectIntoBullet pool rand st b).2 A0 t1 hc1 hp1 hu1

/-- Phase B invariant through one entry, including the synthetic-bullet
step; needs the high-priority keywords pairwise case-insensitively
distinct. -/
theorem processEntry_covered_inv (pool highPrio : List Keyword)
    (rand : Nat → Nat) (idx : Nat) (st : EngineState) (e : ExperienceEntry)
    (hhp : highPrio.Pairwise
      (fun a b => lowerStr a.keyword ≠ lowerStr b.keyword))
    (A0 tail : List Str)
    (hcov : st.stats.keywordsCovered = A0 ++ tail)
    (hpw : tail.Pairwise (fun a b => lowerStr a ≠ lowerStr b))
    (hused : ∀ c ∈ tail, lowerStr c ∈ st.used) :
    ∃ tail2,
      (processEntry pool highPrio rand idx st e).2.stats.keywordsCovered =
        A0 ++ tail2 ∧
      tail2.Pairwise (fun a b => lowerStr a ≠ lowerStr b) ∧
      ∀ c ∈ tail2,
        lowerStr c ∈ (processEntry pool highPrio rand idx st e).2.used := by
  obtain ⟨t1, hc1, hp1, hu1⟩ :=
    processBullets_covered_inv pool rand e.bullets st A0 tail hcov hpw hused
  simp only [processEntry]
  split
  · rename_i k1 k2 tl heq
    split
    · simp only [pickMetric]
      have hfsub : List.Sublist (List.filter (fun k =>
          k.targets.contains (strOf "experience") &&
          !(processBullets pool rand st e.bullets).2.used.contains
            (lowerStr k.keyword)) highPrio) highPrio := List.filter_sublist _
      have hfpw := List.Pairwise.sublist hfsub hhp
      rw [heq] at hfpw
      have hk12 : lowerStr k1.keyword ≠ lowerStr k2.keyword :=
        (List.pairwise_cons.mp hfpw).1 k2 (List.mem_cons_self _ _)
      have hk1mem : k1 ∈ List.filter (fun k =>
          k.targets.contains (strOf "experience") &&
          !(processBullets pool rand st e.bullets).2.used.contains
            (lowerStr k.keyword)) highPrio := by
        rw [heq]; exact List.mem_cons_self _ _
      have hk2mem : k2 ∈ List.filter (fun k =>
          k.targets.contains (strOf "experience") &&
          !(processBullets pool rand st e.bullets).2.used.contains
            (lowerStr k.keyword)) highPrio := by
        rw [heq]; exact List.mem_cons_of_mem _ (List.mem_cons_self _ _)
      have hk1used : lowerStr k1.keyword ∉
          (processBullets pool rand st e.bullets).2.used := by
        have := (List.mem_filter.mp hk1mem).2
        rw [Bool.and_eq_true, Bool.not_eq_true'] at this
        intro hmem
        rw [(strContains_iff _ _).mpr hmem] at this
        exact Bool.noConfusion this.2
      have hk2used : lowerStr k2.keyword ∉
          (processBullets pool rand st e.bullets).2.used := by
        have := (List.mem_filter.mp hk2mem).2
        rw [Bool.and_eq_true, Bool.not_eq_true'] at this
        intro hmem
        rw [(strContains_iff _ _).mpr hmem] at this
        exact Bool.noConfusion this.2
      refine ⟨t1 ++ [k1.keyword, k2.keyword], ?_, ?_, ?_⟩
      · rw [hc1, List.append_assoc]
      · rw [List.pairwise_append]
        refine ⟨hp1, ?_, ?_⟩
        · exact List.pairwise_cons.mpr
            ⟨fun c hc => by rw [List.mem_singleton.mp hc]; exact hk12,
             List.pairwise_singleton _ _⟩
        · intro a ha c hc
          have halow := hu1 a ha
          rcases List.mem_cons.mp hc with rfl | hc2
          · exact fun heq => hk1used (heq ▸ halow)
          · rw [List.mem_singleton.mp hc2]
            exact fun heq => hk2used (heq ▸ halow)
      · intro c hc
        rcases List.mem_append.mp hc with h | h
        · exact List.mem_cons_of_mem _ (List.mem_cons_of_mem _ (hu1 c h))
        · rcases List.mem_cons.mp h with rfl | h2
          · exact List.mem_cons_of_mem _ (List.mem_cons_self _ _)
          · rw [List.mem_singleton.mp h2]
            exact List.mem_cons_self _ _
    · exact ⟨t1, hc1, hp1, hu1⟩
  · exact ⟨t1, hc1, hp1, hu1⟩

/-- Phase B invariant through the whole experience walk. -/
theorem processEntries_covered_inv (pool highPrio : List Keyword)
    (rand : Nat → Nat)
    (hhp : highPrio.Pairwise
      (fun a b => lowerStr a.keyword ≠ lowerStr b.keyword)) :
    ∀ (es : List ExperienceEntry) (idx : Nat) (st : EngineState)
      (A0 tail : List Str),
      st.stats.keywordsCovered = A0 ++ tail →
      tail.Pairwise (fun a b => lowerStr a ≠ lowerStr b) →
      (∀ c ∈ tail, lowerStr c ∈ st.used) →
      ∃ tail2,
        (processEntries pool highPrio rand idx st es).2.stats.keywordsCovered =
          A0 ++ tail2 ∧
        tail2.Pairwise (fun a b => lowerStr a ≠ lowerStr b) := by
  intro es
  induction es with
  | nil => exact fun idx st A0 tail hcov hpw _ => ⟨tail, hcov, hpw⟩
  | cons e es ih =>
    intro idx st A0 tail hcov hpw hused
    obtain ⟨t1, hc1, hp1, hu1⟩ :=
      processEntry_covered_inv pool highPrio rand idx st e hhp A0 tail hcov hpw hused
    exact ih (idx + 1) (processEntry pool highPrio rand idx st e).2 A0 t1 hc1 hp1 hu1

/-- C1 (amended): provided the keyword sequence contains no two keywords
with case-insensitively equal texts, every keyword text appears at most
twice in `stats.keywordsCovered` — at most once from the skills phase and
at most once from the experience phase.  The at-most-once bound of the
original claim fails: Phase A does not mark skills-injected keywords as
used, so the experience phase may consume the same keyword again (see the
counterexample). -/
theorem C1_keyword_consumed_at_most_twice (cv : CV) (kws : List Keyword)
    (opts : Options) (rand : Nat → Nat)
    (hdist : kws.Pairwise
      (fun a b => lowerStr a.keyword ≠ lowerStr b.keyword)) :
    ∀ t : Str,
      (injectKeywords cv kws opts rand).2.keywordsCovered.countP
        (fun c => lowerStr c = t) ≤ 2 := by
  intro t
  obtain ⟨_, _, _, l4⟩ := phaseLocation_frame opts
    (phaseExperience kws rand (phaseSkills kws (initEngineState cv)))
  have hres : (injectKeywords cv kws opts rand).2.keywordsCovered =
      (phaseExperience kws rand
        (phaseSkills kws (initEngineState cv))).stats.keywordsCovered := by
    show (phaseLocation opts _).stats.keywordsCovered = _
    rw [l4]
  rw [hres]
  set stS := phaseSkills kws (initEngineState cv) with hstS
  -- phase A: covered is pairwise case-insensitively distinct
  have hApw : stS.stats.keywordsCovered.Pairwise
      (fun a b => lowerStr a ≠ lowerStr b) := by
    have hAeq : stS.stats.keywordsCovered =
        ((((kws.filter (fun k : Keyword => k.priority = strOf "high")).filter
          (fun k : Keyword => k.targets.contains (strOf "skills"))).take
            MAX_HIGH_PRIO_SKILLS).foldl addSkill
              (initEngineState cv)).stats.keywordsCovered := rfl
    rw [hAeq]
    refine foldl_addSkill_covered_inv _ (initEngineState cv) ?_ ?_
    · exact List.Pairwise.nil
    · intro c hc
      exact absurd hc (List.not_mem_nil c)
  -- phase B: appends a pairwise case-insensitively distinct tail
  have hhp : (kws.filter (fun k => k.priority = strOf "high")).Pairwise
      (fun a b => lowerStr a.keyword ≠ lowerStr b.keyword) :=
    List.Pairwise.sublist (List.filter_sublist _) hdist
  obtain ⟨tail2, hc2, hp2⟩ := processEntries_covered_inv
    ((((kws.filter (fun k => k.priority = strOf "high")).take 3 ++
        (kws.filter (fun k => k.priority = strOf "medium")).take 2)).filter
      (fun k => k.targets.contains (strOf "experience")))
    (kws.filter (fun k => k.priority = strOf "high")) rand hhp
    stS.inj.experience 0 stS stS.stats.keywordsCovered []
    (by rw [List.append_nil]) List.Pairwise.nil
    (fun c hc => absurd hc (List.not_mem_nil c))
  show (processEntries _ _ rand 0 stS stS.inj.experience).2.stats.keywordsCovered.countP
    (fun c => lowerStr c = t) ≤ 2
  rw [hc2, List.countP_append]
  have h1 := countP_low_le_one t stS.stats.keywordsCovered hApw
  have h2 := countP_low_le_one t tail2 hp2
  omega

/-- C1 counterexample: a single high-priority keyword targeting both skills
and experience is consumed twice — once added to skills, once injected into
a bullet — and appears twice in `keywordsCovered`, refuting the at-most-once
claim. -/
theorem C1_counterexample :
    (injectKeywords cvOneBullet [kwKubernetes] ⟨none⟩ rzero).2.keywordsCovered =
      [strOf "Kubernetes", strOf "Kubernetes"] ∧
    (injectKeywords cvOneBullet [kwKubernetes] ⟨none⟩ rzero).2.skillsAdded = 1 ∧
    (injectKeywords cvOneBullet [kwKubernetes] ⟨none⟩ rzero).2.bulletsModified = 1 ∧
    (injectKeywords cvOneBullet [kwKubernetes] ⟨none⟩ rzero).1.skills.hard =
      [strOf "Kubernetes"] :=
  ⟨by decide, by decide, by decide, by decide⟩

/-- C1 witness: the amended bound applied at the concrete double-consumption
run. -/
theorem C1_witness :
    (injectKeywords cvOneBullet [kwKubernetes] ⟨none⟩ rzero).2.keywordsCovered.countP
      (fun c => lowerStr c = strOf "Kubernetes") ≤ 2 :=
  C1_keyword_consumed_at_most_twice cvOneBullet [kwKubernetes] ⟨none⟩ rzero
    (List.pairwise_singleton _ _) (strOf "Kubernetes")

/-! ## Scenario A parse (C3) and pipeline fail-fast (C8) -/

/-- C3 (code bug): parsing the fixed Scenario A text yields the claimed
name, email, single experience entry (company `"Acme Co"`, bullet
`"Built systems."`) and single education entry (`"BSc CS"`) — but
`skills.hard` is `["SKILLS", "Python", "Go"]`, not `["Python", "Go"]`: the
section-heading loop only `continue`s the inner pattern loop, so the
`SKILLS` heading line itself reaches the skills content handler, which —
unlike the education and certifications handlers — has no self-exclusion
guard and records the heading as a skill. -/
theorem C3_scenarioA_parse :
    parseCVToJSON scenarioAText = some scenarioACV ∧
    scenarioACV.skills.hard = [strOf "SKILLS", strOf "Python", strOf "Go"] ∧
    scenarioACV.skills.hard ≠ [strOf "Python", strOf "Go"] :=
  ⟨by decide, by decide, by decide⟩

/-- C8: `parseCVToJSON` returns `null` exactly on empty raw text, and on any
input where it returns `null` the full pipeline stops with the explicit
failure result `{ success: false, error: 'Failed to parse CV' }` — which
carries no keyword, injection, render or match-score payload, so no
downstream step contributes to it. -/
theorem C8_parse_failure_fail_fast (t : Str) (kg : KeywordGroups)
    (opts : Options) (rand : Nat → Nat) :
    (parseCVToJSON t = none ↔ t = []) ∧
    (parseCVToJSON t = none →
      fullInjectionPipeline t kg opts rand =
        .failure (strOf "Failed to parse CV")) := by
  constructor
  · constructor
    · intro h
      by_cases he : t.isEmpty
      · exact List.isEmpty_iff.mp he
      · rw [parseCVToJSON, if_neg he] at h
        exact absurd h (by simp)
    · intro h
      rw [h]
      rfl
  · intro h
    unfold fullInjectionPipeline
    rw [h]

/-- C8 witness: the empty raw text fails fast. -/
theorem C8_witness :
    fullInjectionPipeline [] ⟨none, none, none, none, none, none, none⟩
        ⟨none⟩ rzero = .failure (strOf "Failed to parse CV") :=
  (C8_parse_failure_fail_fast [] ⟨none, none, none, none, none, none, none⟩
    ⟨none⟩ rzero).2 (by decide)

/-! ## CRC-32 correctness (C6) -/

/-- The polynomial-reduction step is linear over an even summand: a factor-2
multiple shifts straight through one step. -/
theorem crcBitstep_double (a c : Nat) :
    crcBitstep (2 * a ^^^ c) = a ^^^ crcBitstep c := by
  have hmod : (2 * a ^^^ c) % 2 = c % 2 := by
    rw [Nat.xor_mod_two_eq]
    omega
  have hdiv : (2 * a ^^^ c) / 2 = a ^^^ c / 2 := by
    rw [Nat.xor_div_two]
    have h2 : 2 * a / 2 = a := by omega
    rw [h2]
  unfold crcBitstep
  rw [hmod, hdiv]
  split
  · rw [← Nat.xor_assoc, Nat.xor_comm CRC_POLY a, Nat.xor_assoc]
  · rfl

/-- XOR with a byte-bounded value is addition onto a 256-multiple. -/
theorem mul256_xor_eq_add (a b : Nat) (hb : b < 256) :
    256 * a ^^^ b = 256 * a + b := by
  apply Nat.eq_of_testBit_eq
  intro j
  have hb8 : b < 2 ^ 8 := hb
  rw [Nat.testBit_xor, show (256 : Nat) = 2 ^ 8 from rfl,
    Nat.testBit_mul_pow_two_add a hb8 j, Nat.testBit_mul_pow_two]
  by_cases hj : j < 8
  · simp [hj, Nat.not_le_of_lt hj]
  · have hbj : b < 2 ^ j :=
      Nat.lt_of_lt_of_le hb8 (Nat.pow_le_pow_right (by omega) (by omega))
    simp [hj, Nat.le_of_not_lt hj, Nat.testBit_lt_two_pow hbj]

/-- Any number splits into its low byte XORed onto the rest. -/
theorem crc_decompose (x : Nat) : 256 * (x / 256) ^^^ x % 256 = x := by
  rw [mul256_xor_eq_add _ _ (Nat.mod_lt x (by omega))]
  omega

/-- Eight reduction steps split into a plain byte shift of the high part and
the table computation on the low byte. -/
theorem crcBits8_split (c : Nat) :
    crcBits8 c = c / 256 ^^^ crcBits8 (c % 256) := by
  conv_lhs => rw [← crc_decompose c]
  have h : 256 * (c / 256) =
      2 * (2 * (2 * (2 * (2 * (2 * (2 * (2 * (c / 256)))))))) := by ring
  rw [h]
  simp only [crcBits8]
  rw [crcBitstep_double, crcBitstep_double, crcBitstep_double, crcBitstep_double,
    crcBitstep_double, crcBitstep_double, crcBitstep_double, crcBitstep_double]

/-- Division by 256 distributes over XOR. -/
theorem xor_div_256 (x y : Nat) : (x ^^^ y) / 256 = x / 256 ^^^ y / 256 := by
  have h2 : ∀ z : Nat, z / 256 = z / 2 / 2 / 2 / 2 / 2 / 2 / 2 / 2 := by
    intro z
    simp [Nat.div_div_eq_div_mul]
  rw [h2 (x ^^^ y), h2 x, h2 y,
    Nat.xor_div_two, Nat.xor_div_two, Nat.xor_div_two, Nat.xor_div_two,
    Nat.xor_div_two, Nat.xor_div_two, Nat.xor_div_two, Nat.xor_div_two]

/-- One table-driven byte step equals one bitwise byte step, for byte
input. -/
theorem crc32Step_eq_ref (crc b : Nat) (hb : b < 256) :
    crc32Step crc b = crcRefStep crc b := by
  unfold crc32Step crcRefStep crc32Table
  rw [crcBits8_split (crc ^^^ b)]
  congr 1
  rw [xor_div_256, Nat.div_eq_of_lt hb, Nat.xor_zero]

/-- The table-driven fold equals the bitwise fold on byte input. -/
theorem crc32_foldl_eq (l : List Nat) (h : ∀ b ∈ l, b < 256) :
    ∀ init : Nat, l.foldl crc32Step init = l.foldl crcRefStep init := by
  induction l with
  | nil => intro _; rfl
  | cons x t ih =>
    intro init
    rw [List.foldl_cons, List.foldl_cons,
      crc32Step_eq_ref init x (h x (List.mem_cons_self _ _)),
      ih (fun b hb => h b (List.mem_cons_of_mem _ hb))]

/-- C6: `_crc32` computes the standard IEEE reflected CRC-32: on every byte
input it agrees with the table-free reference definition (polynomial
`0xEDB88320`, seed `0xFFFFFFFF`, final XOR `0xFFFFFFFF`), and it meets the
standard test vectors — `0` for the empty buffer and `0xCBF43926` for the
ASCII bytes of `"123456789"`. -/
theorem C6_crc32_standard (data : List Nat) (h : ∀ b ∈ data, b < 256) :
    crc32 data = crc32Ref data ∧
    crc32 [] = 0 ∧
    crc32 (asciiBytes "123456789") = 0xCBF43926 := by
  refine ⟨?_, by decide, by decide⟩
  unfold crc32 crc32Ref
  rw [crc32_foldl_eq data h]

/-- C6 witness: the equivalence applied to the `"123456789"` vector. -/
theorem C6_witness :
    crc32 (asciiBytes "123456789") = crc32Ref (asciiBytes "123456789") ∧
    crc32 [] = 0 ∧
    crc32 (asciiBytes "123456789") = 0xCBF43926 :=
  C6_crc32_standard (asciiBytes "123456789") (by decide)

/-! ## ZIP archive round trip (C5)

Positional read lemmas: reading at `pos + k` in `z` equals reading at `k`
in `z.drop pos`, and reads inside a known prefix ignore the suffix. -/

theorem byteAt_drop (z : List Nat) (pos : Nat) : ∀ (k : Nat),
    byteAt (z.drop pos) k = byteAt z (pos + k) := by
  induction pos generalizing z with
  | zero => intro k; rw [List.drop_zero, Nat.zero_add]
  | succ n ih =>
    intro k
    cases z with
    | nil => rfl
    | cons x t =>
      show byteAt (t.drop n) k = byteAt (x :: t) (n + 1 + k)
      rw [ih t k]
      show byteAt t (n + k) = byteAt (x :: t) (n + 1 + k)
      unfold byteAt
      rw [show n + 1 + k = (n + k) + 1 by omega, List.getD_cons_succ]

theorem readLE16_drop (z : List Nat) (pos k : Nat) :
    readLE16 (z.drop pos) k = readLE16 z (pos + k) := by
  unfold readLE16
  rw [byteAt_drop, byteAt_drop]
  simp [Nat.add_assoc]

theorem readLE32_drop (z : List Nat) (pos k : Nat) :
    readLE32 (z.drop pos) k = readLE32 z (pos + k) := by
  unfold readLE32
  rw [byteAt_drop, byteAt_drop, byteAt_drop, byteAt_drop]
  simp [Nat.add_assoc]

theorem sliceBytes_drop (z : List Nat) (pos k n : Nat) :
    sliceBytes (z.drop pos) k n = sliceBytes z (pos + k) n := by
  unfold sliceBytes
  rw [List.drop_drop]

theorem readLE16_at {z seg : List Nat} {pos : Nat} (h : z.drop pos = seg)
    (k : Nat) : readLE16 z (pos + k) = readLE16 seg k := by
  rw [← readLE16_drop, h]

theorem readLE32_at {z seg : List Nat} {pos : Nat} (h : z.drop pos = seg)
    (k : Nat) : readLE32 z (pos + k) = readLE32 seg k := by
  rw [← readLE32_drop, h]

theorem sliceBytes_at {z seg : List Nat} {pos : Nat} (h : z.drop pos = seg)
    (k n : Nat) : sliceBytes z (pos + k) n = sliceBytes seg k n := by
  rw [← sliceBytes_drop, h]

/-! Field decode lemmas: each fixed field of a record is exposed by a
`List.drop` equation (proved by `simp` normalization of the append chain)
followed by a little-endian decode of the chunk at the front. -/

theorem readLE16_le16 (x : Nat) (B : List Nat) (hx : x < 65536) :
    readLE16 (le16 x ++ B) 0 = x := by
  show x % 256 + 256 * (x / 256 % 256) = x
  omega

theorem readLE32_le32 (x : Nat) (B : List Nat) (hx : x < 4294967296) :
    readLE32 (le32 x ++ B) 0 = x := by
  show x % 256 + 256 * (x / 256 % 256) + 65536 * (x / 65536 % 256) +
    16777216 * (x / 16777216 % 256) = x
  omega

theorem readLE16_field {z B : List Nat} {pos : Nat} (h : z.drop pos = B) :
    readLE16 z pos = readLE16 B 0 := by
  have h2 := readLE16_at h 0
  rwa [Nat.add_zero] at h2

theorem readLE32_field {z B : List Nat} {pos : Nat} (h : z.drop pos = B) :
    readLE32 z pos = readLE32 B 0 := by
  have h2 := readLE32_at h 0
  rwa [Nat.add_zero] at h2

theorem localHeader_reads (p c rest : List Nat) (hp : p.length < 65536)
    (hc : c.length < 4294967296) :
    readLE32 (localHeader p c ++ (c ++ rest)) 0 = 0x04034b50 ∧
    readLE32 (localHeader p c ++ (c ++ rest)) 18 = c.length ∧
    readLE16 (localHeader p c ++ (c ++ rest)) 26 = p.length ∧
    readLE16 (localHeader p c ++ (c ++ rest)) 28 = 0 := by
  have hsplit : localHeader p c ++ (c ++ rest) =
      le32 0x04034b50 ++ (le16 20 ++ (le16 0 ++ (le16 0 ++ (le16 0 ++
        (le16 0 ++ (le32 (crc32 c) ++ (le32 c.length ++ (le32 c.length ++
          (le16 p.length ++ (le16 0 ++ (p ++ (c ++ rest)))))))))))) := by
    simp [localHeader, List.append_assoc]
  have d18 : (localHeader p c ++ (c ++ rest)).drop 18 =
      le32 c.length ++ (le32 c.length ++
        (le16 p.length ++ (le16 0 ++ (p ++ (c ++ rest))))) := by
    simp [localHeader, le16, le32, List.append_assoc]
  have d26 : (localHeader p c ++ (c ++ rest)).drop 26 =
      le16 p.length ++ (le16 0 ++ (p ++ (c ++ rest))) := by
    simp [localHeader, le16, le32, List.append_assoc]
  have d28 : (localHeader p c ++ (c ++ rest)).drop 28 =
      le16 0 ++ (p ++ (c ++ rest)) := by
    simp [localHeader, le16, le32, List.append_assoc]
  refine ⟨?_, ?_, ?_, ?_⟩
  · rw [hsplit, readLE32_le32 _ _ (by norm_num)]
  · rw [readLE32_field d18, readLE32_le32 _ _ hc]
  · rw [readLE16_field d26, readLE16_le16 _ _ hp]
  · rw [readLE16_field d28, readLE16_le16 _ _ (by norm_num)]

theorem localHeader_drop30 (p c rest : List Nat) :
    (localHeader p c ++ (c ++ rest)).drop 30 = p ++ (c ++ rest) := by
  simp [localHeader, le16, le32, List.append_assoc]

theorem cdRecord_reads (p c rest : List Nat) (off : Nat)
    (hp : p.length < 65536) (hoff : off < 4294967296) :
    readLE32 (cdRecord p c off ++ rest) 0 = 0x02014b50 ∧
    readLE16 (cdRecord p c off ++ rest) 28 = p.length ∧
    readLE16 (cdRecord p c off ++ rest) 30 = 0 ∧
    readLE16 (cdRecord p c off ++ rest) 32 = 0 ∧
    readLE32 (cdRecord p c off ++ rest) 42 = off := by
  have hsplit : cdRecord p c off ++ rest =
      le32 0x02014b50 ++ (le16 20 ++ (le16 20 ++ (le16 0 ++ (le16 0 ++
        (le16 0 ++ (le16 0 ++ (le32 (crc32 c) ++ (le32 c.length ++
          (le32 c.length ++ (le16 p.length ++ (le16 0 ++ (le16 0 ++
            (le16 0 ++ (le16 0 ++ (le32 0 ++ (le32 off ++
              (p ++ rest))))))))))))))))) := by
    simp [cdRecord, List.append_assoc]
  have d28 : (cdRecord p c off ++ rest).drop 28 =
      le16 p.length ++ (le16 0 ++ (le16 0 ++ (le16 0 ++ (le16 0 ++
        (le32 0 ++ (le32 off ++ (p ++ rest))))))) := by
    simp [cdRecord, le16, le32, List.append_assoc]
  have d30 : (cdRecord p c off ++ rest).drop 30 =
      le16 0 ++ (le16 0 ++ (le16 0 ++ (le16 0 ++
        (le32 0 ++ (le32 off ++ (p ++ rest)))))) := by
    simp [cdRecord, le16, le32, List.append_assoc]
  have d32 : (cdRecord p c off ++ rest).drop 32 =
      le16 0 ++ (le16 0 ++ (le16 0 ++ (le32 0 ++ (le32 off ++ (p ++ rest))))) := by
    simp [cdRecord, le16, le32, List.append_assoc]
  have d42 : (cdRecord p c off ++ rest).drop 42 =
      le32 off ++ (p ++ rest) := by
    simp [cdRecord, le16, le32, List.append_assoc]
  refine ⟨?_, ?_, ?_, ?_, ?_⟩
  · rw [hsplit, readLE32_le32 _ _ (by norm_num)]
  · rw [readLE16_field d28, readLE16_le16 _ _ hp]
  · rw [readLE16_field d30, readLE16_le16 _ _ (by norm_num)]
  · rw [readLE16_field d32, readLE16_le16 _ _ (by norm_num)]
  · rw [readLE32_field d42, readLE32_le32 _ _ hoff]

theorem cdRecord_drop46 (p c rest : List Nat) (off : Nat) :
    (cdRecord p c off ++ rest).drop 46 = p ++ rest := by
  simp [cdRecord, le16, le32, List.append_assoc]

theorem eocd_reads (n s o : Nat) (hn : n < 65536) (hs : s < 4294967296)
    (ho : o < 4294967296) :
    readLE32 (eocd n s o) 0 = 0x06054b50 ∧
    readLE16 (eocd n s o) 8 = n ∧
    readLE16 (eocd n s o) 10 = n ∧
    readLE32 (eocd n s o) 12 = s ∧
    readLE32 (eocd n s o) 16 = o := by
  have hsplit : eocd n s o =
      le32 0x06054b50 ++ (le16 0 ++ (le16 0 ++ (le16 n ++ (le16 n ++
        (le32 s ++ (le32 o ++ le16 0)))))) := by
    simp [eocd, List.append_assoc]
  have d8 : (eocd n s o).drop 8 =
      le16 n ++ (le16 n ++ (le32 s ++ (le32 o ++ le16 0))) := by
    simp [eocd, le16, le32, List.append_assoc]
  have d10 : (eocd n s o).drop 10 =
      le16 n ++ (le32 s ++ (le32 o ++ le16 0)) := by
    simp [eocd, le16, le32, List.append_assoc]
  have d12 : (eocd n s o).drop 12 = le32 s ++ (le32 o ++ le16 0) := by
    simp [eocd, le16, le32, List.append_assoc]
  have d16 : (eocd n s o).drop 16 = le32 o ++ le16 0 := by
    simp [eocd, le16, le32, List.append_assoc]
  refine ⟨?_, ?_, ?_, ?_, ?_⟩
  · rw [hsplit, readLE32_le32 _ _ (by norm_num)]
  · rw [readLE16_field d8, readLE16_le16 _ _ hn]
  · rw [readLE16_field d10, readLE16_le16 _ _ hn]
  · rw [readLE32_field d12, readLE32_le32 _ _ hs]
  · rw [readLE32_field d16, readLE32_le32 _ _ ho]

/-! Length and append decomposition of the three archive sections. -/

theorem localHeader_length (p c : List Nat) :
    (localHeader p c).length = 30 + p.length := by
  simp [localHeader, le16, le32]
  omega

theorem localSection_length (parts : List (List Nat × List Nat)) :
    (localSection parts).length = localSize parts := by
  induction parts with
  | nil => rfl
  | cons pc tl ih =>
    obtain ⟨p, c⟩ := pc
    simp [localSection, localSize, entrySize, List.map_cons, List.sum_cons,
      localHeader, le16, le32] at *
    omega

theorem cdRecord_length (p c : List Nat) (off : Nat) :
    (cdRecord p c off).length = 46 + p.length := by
  simp [cdRecord, le16, le32]
  omega

theorem cdSection_length (parts : List (List Nat × List Nat)) :
    ∀ off, (cdSection parts off).length = cdSize parts := by
  induction parts with
  | nil => intro off; rfl
  | cons pc tl ih =>
    obtain ⟨p, c⟩ := pc
    intro off
    simp [cdSection, cdSize, List.map_cons, List.sum_cons, cdRecord,
      le16, le32]
    have h := ih (off + 30 + p.length + c.length)
    simp [cdSize] at h
    omega

theorem eocd_length (n s o : Nat) : (eocd n s o).length = 22 := rfl

theorem zip_length (parts : List (List Nat × List Nat)) :
    (createMinimalZip parts).length = localSize parts + cdSize parts + 22 := by
  simp [createMinimalZip, localSection_length, cdSection_length, eocd_length]
  omega

theorem localSection_append (a b : List (List Nat × List Nat)) :
    localSection (a ++ b) = localSection a ++ localSection b := by
  induction a with
  | nil => rfl
  | cons pc tl ih =>
    obtain ⟨p, c⟩ := pc
    simp [localSection, ih, List.append_assoc]

theorem localSize_append (a b : List (List Nat × List Nat)) :
    localSize (a ++ b) = localSize a + localSize b := by
  simp [localSize, List.map_append, List.sum_append]

theorem cdSize_append (a b : List (List Nat × List Nat)) :
    cdSize (a ++ b) = cdSize a + cdSize b := by
  simp [cdSize, List.map_append, List.sum_append]

theorem cdSection_append (a b : List (List Nat × List Nat)) :
    ∀ off, cdSection (a ++ b) off =
      cdSection a off ++ cdSection b (off + localSize a) := by
  induction a with
  | nil => intro off; simp [cdSection, localSize]
  | cons pc tl ih =>
    obtain ⟨p, c⟩ := pc
    intro off
    simp only [List.cons_append, cdSection, List.append_eq, ih,
      List.append_assoc]
    have harith : off + 30 + p.length + c.length + localSize tl =
        off + localSize ((p, c) :: tl) := by
      simp [localSize, entrySize, List.map_cons, List.sum_cons]
      omega
    rw [harith]

/-! Locating the end record, a local entry, and a central-directory record
inside the built archive. -/

theorem zip_drop_eocd (parts : List (List Nat × List Nat)) :
    (createMinimalZip parts).drop (localSize parts + cdSize parts) =
      eocd parts.length (cdSize parts) (localSize parts) := by
  have h : createMinimalZip parts =
      (localSection parts ++ cdSection parts 0) ++
        eocd parts.length (cdSize parts) (localSize parts) := by
    simp [createMinimalZip, List.append_assoc]
  rw [h]
  exact List.drop_left' (by simp [localSection_length, cdSection_length])

theorem drop_localPos (pre post : List (List Nat × List Nat))
    (p c S : List Nat) :
    ((localSection (pre ++ (p, c) :: post)) ++ S).drop (localSize pre) =
      localHeader p c ++ (c ++ (localSection post ++ S)) := by
  rw [localSection_append]
  have h : localSection pre ++ localSection ((p, c) :: post) ++ S =
      localSection pre ++
        (localHeader p c ++ (c ++ (localSection post ++ S))) := by
    simp [localSection, List.append_assoc]
  rw [h]
  exact List.drop_left' (localSection_length pre)

theorem readLocalAt_correct (pre post : List (List Nat × List Nat))
    (p c S : List Nat) (hp : p.length < 65536) (hc : c.length < 4294967296) :
    readLocalAt ((localSection (pre ++ (p, c) :: post)) ++ S)
      (localSize pre) = some (p, c) := by
  set z := (localSection (pre ++ (p, c) :: post)) ++ S with hz
  have hd : z.drop (localSize pre) =
      localHeader p c ++ (c ++ (localSection post ++ S)) :=
    drop_localPos pre post p c S
  obtain ⟨hsig, h18, h26, h28⟩ :=
    localHeader_reads p c (localSection post ++ S) hp hc
  have rsig : readLE32 z (localSize pre) = 0x04034b50 := by
    have h := readLE32_at hd 0
    rw [Nat.add_zero] at h
    rw [h]
    exact hsig
  have rname : readLE16 z (localSize pre + 26) = p.length := by
    rw [readLE16_at hd 26]; exact h26
  have rextra : readLE16 z (localSize pre + 28) = 0 := by
    rw [readLE16_at hd 28]; exact h28
  have rsize : readLE32 z (localSize pre + 18) = c.length := by
    rw [readLE32_at hd 18]; exact h18
  have d30 : z.drop (localSize pre + 30) =
      p ++ (c ++ (localSection post ++ S)) := by
    rw [← List.drop_drop, hd]
    exact localHeader_drop30 p c (localSection post ++ S)
  have sname : sliceBytes z (localSize pre + 30) p.length = p := by
    unfold sliceBytes
    rw [d30]
    exact List.take_left p _
  have dcont : z.drop (localSize pre + 30 + p.length + 0) =
      c ++ (localSection post ++ S) := by
    rw [Nat.add_zero, ← List.drop_drop, d30, List.drop_left]
  have scont : sliceBytes z (localSize pre + 30 + p.length + 0) c.length =
      c := by
    unfold sliceBytes
    rw [dcont]
    exact List.take_left c _
  simp only [readLocalAt]
  rw [rsig, rname, rextra, rsize, if_pos rfl, sname, scont]

theorem drop_cdPos (pre post : List (List Nat × List Nat)) (p c : List Nat) :
    ∃ rest, (createMinimalZip (pre ++ (p, c) :: post)).drop
        (localSize (pre ++ (p, c) :: post) + cdSize pre) =
      cdRecord p c (localSize pre) ++ rest := by
  refine ⟨cdSection post (localSize pre + 30 + p.length + c.length) ++
    eocd (pre ++ (p, c) :: post).length (cdSize (pre ++ (p, c) :: post))
      (localSize (pre ++ (p, c) :: post)), ?_⟩
  have hsplit : createMinimalZip (pre ++ (p, c) :: post) =
      (localSection (pre ++ (p, c) :: post) ++ cdSection pre 0) ++
        (cdRecord p c (localSize pre) ++
          (cdSection post (localSize pre + 30 + p.length + c.length) ++
            eocd (pre ++ (p, c) :: post).length
              (cdSize (pre ++ (p, c) :: post))
              (localSize (pre ++ (p, c) :: post)))) := by
    simp [createMinimalZip, cdSection_append, cdSection, List.append_assoc]
  rw [hsplit]
  exact List.drop_left' (by simp [localSection_length, cdSection_length])

theorem readCD_walk (parts : List (List Nat × List Nat))
    (hsize : localSize parts < 4294967296)
    (hb : ∀ pc ∈ parts, pc.1.length < 65536 ∧ pc.2.length < 4294967296) :
    ∀ post pre, parts = pre ++ post →
      readCD (createMinimalZip parts) (localSize parts + cdSize pre)
        post.length = some post := by
  intro post
  induction post with
  | nil => intro pre hsp; rfl
  | cons pc tl ih =>
    obtain ⟨p, c⟩ := pc
    intro pre hsp
    subst hsp
    have hmem : ((p, c) : List Nat × List Nat) ∈ pre ++ (p, c) :: tl := by
      simp
    obtain ⟨hp, hc⟩ := hb (p, c) hmem
    have hoff : localSize pre < 4294967296 := by
      have h := localSize_append pre ((p, c) :: tl)
      omega
    obtain ⟨rest, hdrop⟩ := drop_cdPos pre tl p c
    obtain ⟨rsig, r28, r30, r32, r42⟩ :=
      cdRecord_reads p c rest (localSize pre) hp hoff
    have zsig : readLE32 (createMinimalZip (pre ++ (p, c) :: tl))
        (localSize (pre ++ (p, c) :: tl) + cdSize pre) = 0x02014b50 := by
      have h := readLE32_at hdrop 0
      rw [Nat.add_zero] at h
      rw [h]; exact rsig
    have z28 : readLE16 (createMinimalZip (pre ++ (p, c) :: tl))
        (localSize (pre ++ (p, c) :: tl) + cdSize pre + 28) = p.length := by
      rw [readLE16_at hdrop 28]; exact r28
    have z30 : readLE16 (createMinimalZip (pre ++ (p, c) :: tl))
        (localSize (pre ++ (p, c) :: tl) + cdSize pre + 30) = 0 := by
      rw [readLE16_at hdrop 30]; exact r30
    have z32 : readLE16 (createMinimalZip (pre ++ (p, c) :: tl))
        (localSize (pre ++ (p, c) :: tl) + cdSize pre + 32) = 0 := by
      rw [readLE16_at hdrop 32]; exact r32
    have z42 : readLE32 (createMinimalZip (pre ++ (p, c) :: tl))
        (localSize (pre ++ (p, c) :: tl) + cdSize pre + 42) = localSize pre := by
      rw [readLE32_at hdrop 42]; exact r42
    have hzs : createMinimalZip (pre ++ (p, c) :: tl) =
        localSection (pre ++ (p, c) :: tl) ++
          (cdSection (pre ++ (p, c) :: tl) 0 ++
            eocd (pre ++ (p, c) :: tl).length (cdSize (pre ++ (p, c) :: tl))
              (localSize (pre ++ (p, c) :: tl))) := by
      simp [createMinimalZip, List.append_assoc]
    have hlocal : readLocalAt (createMinimalZip (pre ++ (p, c) :: tl))
        (localSize pre) = some (p, c) := by
      rw [hzs]
      exact readLocalAt_correct pre tl p c _ hp hc
    have hpos : localSize (pre ++ (p, c) :: tl) + cdSize pre + 46 +
        p.length =
        localSize (pre ++ (p, c) :: tl) + cdSize (pre ++ [(p, c)]) := by
      have h1 : cdSize [(p, c)] = 46 + p.length := by simp [cdSize]
      have h2 := cdSize_append pre [(p, c)]
      omega
    have hih := ih (pre ++ [(p, c)]) (by simp)
    simp only [List.length_cons, readCD, zsig, if_pos, z28, z30, z32, z42,
      Nat.add_zero, hlocal, hpos, hih]

/-- C5: the minimal ZIP builder round-trips. For every ordered list of
named parts (with name lengths below 2^16, content lengths and section
sizes below 2^32, and fewer than 2^16 entries), a conforming reader
recovers exactly the same parts in insertion order; the end record holds
the entry count, central-directory size and central-directory offset, and
each central-directory record's offset field is the byte position of that
entry's local header, where a local-header signature indeed sits. -/
theorem C5_zip_roundtrip (parts : List (List Nat × List Nat))
    (hn : parts.length < 65536)
    (hsize : localSize parts < 4294967296)
    (hcd : cdSize parts < 4294967296)
    (hb : ∀ pc ∈ parts, pc.1.length < 65536 ∧ pc.2.length < 4294967296) :
    readZip (createMinimalZip parts) = some parts ∧
    readLE16 (createMinimalZip parts)
      (localSize parts + cdSize parts + 10) = parts.length ∧
    readLE32 (createMinimalZip parts)
      (localSize parts + cdSize parts + 12) = cdSize parts ∧
    readLE32 (createMinimalZip parts)
      (localSize parts + cdSize parts + 16) = localSize parts ∧
    ∀ pre p c post, parts = pre ++ (p, c) :: post →
      readLE32 (createMinimalZip parts)
        (localSize parts + cdSize pre + 42) = localSize pre ∧
      readLE32 (createMinimalZip parts) (localSize pre) = 0x04034b50 := by
  have hdrop := zip_drop_eocd parts
  obtain ⟨esig, e8, e10, e12, e16⟩ :=
    eocd_reads parts.length (cdSize parts) (localSize parts) hn hcd hsize
  have zesig : readLE32 (createMinimalZip parts)
      (localSize parts + cdSize parts) = 0x06054b50 := by
    have h := readLE32_at hdrop 0
    rw [Nat.add_zero] at h
    rw [h]; exact esig
  have ze10 : readLE16 (createMinimalZip parts)
      (localSize parts + cdSize parts + 10) = parts.length := by
    rw [readLE16_at hdrop 10]; exact e10
  have ze12 : readLE32 (createMinimalZip parts)
      (localSize parts + cdSize parts + 12) = cdSize parts := by
    rw [readLE32_at hdrop 12]; exact e12
  have ze16 : readLE32 (createMinimalZip parts)
      (localSize parts + cdSize parts + 16) = localSize parts := by
    rw [readLE32_at hdrop 16]; exact e16
  have hlen : (createMinimalZip parts).length - 22 =
      localSize parts + cdSize parts := by
    rw [zip_length]
    omega
  have hwalk := readCD_walk parts hsize hb parts [] rfl
  have h0 : localSize parts + cdSize [] = localSize parts := by
    simp [cdSize]
  rw [h0] at hwalk
  refine ⟨?_, ze10, ze12, ze16, ?_⟩
  · simp only [readZip, hlen, zesig, if_pos, ze10, ze16, hwalk]
    rw [if_pos]
    rw [zip_length]
    omega
  · intro pre p c post hsp
    have hmem : ((p, c) : List Nat × List Nat) ∈ parts := by
      rw [hsp]; simp
    obtain ⟨hp, hc⟩ := hb (p, c) hmem
    have hoff : localSize pre < 4294967296 := by
      have hla := localSize_append pre ((p, c) :: post)
      rw [← hsp] at hla
      omega
    obtain ⟨rest, hdropc⟩ := drop_cdPos pre post p c
    rw [← hsp] at hdropc
    obtain ⟨rsig, r28, r30, r32, r42⟩ :=
      cdRecord_reads p c rest (localSize pre) hp hoff
    refine ⟨?_, ?_⟩
    · rw [readLE32_at hdropc 42]; exact r42
    · have hzs2 : createMinimalZip parts =
          localSection (pre ++ (p, c) :: post) ++
            (cdSection parts 0 ++
              eocd parts.length (cdSize parts) (localSize parts)) := by
        rw [hsp]
        simp [createMinimalZip, List.append_assoc]
      have hd2 : (createMinimalZip parts).drop (localSize pre) =
          localHeader p c ++ (c ++ (localSection post ++
            (cdSection parts 0 ++
              eocd parts.length (cdSize parts) (localSize parts)))) := by
        rw [hzs2]
        exact drop_localPos pre post p c _
      have hsig2 := (localHeader_reads p c (localSection post ++
        (cdSection parts 0 ++
          eocd parts.length (cdSize parts) (localSize parts))) hp hc).1
      have h := readLE32_at hd2 0
      rw [Nat.add_zero] at h
      rw [h]
      exact hsig2

/-- Witness for C5 at a concrete archive: one part named `"a"` with
content bytes `"hi"` survives the round trip. -/
theorem C5_witness :
    readZip (createMinimalZip [([97], [104, 105])]) =
      some [([97], [104, 105])] :=
  (C5_zip_roundtrip [([97], [104, 105])] (by decide) (by decide) (by decide)
    (by decide)).1

end CVInjector
